import Mathlib

/-!
Verification of the citation lifecycle engine of the Jarvis_AI RAG pipeline.

Texts are modelled as `List Char`.  The regular-expression operations of the
Python source are modelled by explicit left-to-right scanners with the same
semantics (leftmost, non-overlapping matches, maximal digit runs):

* `scanSources`  models `re.findall(r'\[Source (\d+)\]', text)` followed by
  `int(...)` (src/citation_manager.py lines 101-102);
* `replaceAll pat rep` models `re.sub` with a literal pattern (all the
  patterns handed to `re.sub` by `process_response` are literal strings);
* `removeBare`   models `re.sub(r'\[(\d+)\]', '', text)` (line 137);
* `collapseWS`   models `re.sub(r'\s+', ' ', text)` (line 148), with the
  whitespace class read over the ASCII whitespace characters;
* `stripWS`      models `str.strip()` (line 148).

The scanners consume at least one character per step, so they are phrased
with an explicit fuel argument, always called with fuel at least the length
of the scanned text; a fuel-irrelevance lemma and unfolding equations are
proved for each, and all later reasoning uses only the unfolding equations.
-/

namespace Jarvis

/-- ASCII whitespace: the characters matched by the regex whitespace class
on ASCII text (space, tab, newline, carriage return, vertical tab,
form feed). -/
def isWS (c : Char) : Bool :=
  c = ' ' ∨ c = '\t' ∨ c = '\n' ∨ c = '\r' ∨ c = '\x0b' ∨ c = '\x0c'

/-- Numeric value of a decimal digit string, as computed by Python `int`. -/
def digitsToNat (ds : List Char) : Nat :=
  ds.foldl (fun a c => 10 * a + (c.toNat - 48)) 0

/-- Decimal digits of `n`, most significant first, produced with explicit
fuel (the fuel `n + 1` always suffices).  This is the decimal form produced
by a Python f-string interpolation of an `int`. -/
def natToDigitsAux : Nat → Nat → List Char
  | 0, _ => []
  | fuel + 1, n =>
    if n < 10 then [Nat.digitChar n]
    else natToDigitsAux fuel (n / 10) ++ [Nat.digitChar (n % 10)]

/-- Canonical decimal representation of a natural number (no leading
zeros). -/
def natToDigits (n : Nat) : List Char := natToDigitsAux (n + 1) n

/-- The characters `Source ` that follow the opening bracket of a citation
marker. -/
def sourceTag : List Char := ['S', 'o', 'u', 'r', 'c', 'e', ' ']

/-- The literal marker `[Source n]` (n printed in decimal). -/
def srcMarker (n : Nat) : List Char :=
  '[' :: sourceTag ++ natToDigits n ++ [']']

/-- The characters `__TEMP_SOURCE_` of the temporary placeholder used by
`process_response` step 1 (src/citation_manager.py line 125). -/
def tempTag : List Char :=
  ['_', '_', 'T', 'E', 'M', 'P', '_', 'S', 'O', 'U', 'R', 'C', 'E', '_']

/-- The literal placeholder `__TEMP_SOURCE_n__`. -/
def tempMarker (n : Nat) : List Char := tempTag ++ natToDigits n ++ ['_', '_']

/-- After an opening bracket, try to match `Source <digits>]`: the regex
`\[Source (\d+)\]` matches at the bracket exactly when the text continues
with the tag `Source `, a maximal nonempty digit run and `]`.  Returns the
parsed number and the text after the closing bracket. -/
def matchSourceAfterBracket (l : List Char) : Option (Nat × List Char) :=
  if l.take 7 = sourceTag then
    match (l.drop 7).dropWhile Char.isDigit with
    | ']' :: r2 =>
      if (l.drop 7).takeWhile Char.isDigit = [] then none
      else some (digitsToNat ((l.drop 7).takeWhile Char.isDigit), r2)
    | _ => none
  else none

theorem matchSourceAfterBracket_length {l : List Char} {n : Nat} {r2 : List Char}
    (h : matchSourceAfterBracket l = some (n, r2)) : r2.length < l.length := by
  unfold matchSourceAfterBracket at h
  by_cases htag : l.take 7 = sourceTag
  · simp only [htag, if_pos rfl] at h
    have hlen7 : 7 ≤ l.length := by
      have h7 := congrArg List.length htag
      simp [sourceTag] at h7
      omega
    rcases hdw : (l.drop 7).dropWhile Char.isDigit with _ | ⟨c, r⟩
    · rw [hdw] at h; simp at h
    · rw [hdw] at h
      by_cases hc : c = ']'
      · subst hc
        by_cases hds : (l.drop 7).takeWhile Char.isDigit = []
        · simp [hds] at h
        · simp [hds] at h
          obtain ⟨-, hr⟩ := h
          subst hr
          have hsplit := List.takeWhile_append_dropWhile Char.isDigit (l.drop 7)
          rw [hdw] at hsplit
          have hlen := congrArg List.length hsplit
          simp [List.length_drop] at hlen
          omega
      · simp [hc] at h
  · simp [htag] at h

/-- Fueled scanner for `[Source N]` markers. -/
def scanSourcesFuel : Nat → List Char → List Nat
  | _, [] => []
  | 0, _ :: _ => []
  | fuel + 1, c :: rest =>
    if c = '[' then
      match matchSourceAfterBracket rest with
      | some (n, r2) => n :: scanSourcesFuel fuel r2
      | none => scanSourcesFuel fuel rest
    else scanSourcesFuel fuel rest

/-- All the citation numbers appearing as `[Source N]` markers in the text,
in order of appearance, duplicates retained; models
`re.findall(r'\[Source (\d+)\]', response_text)` followed by `int`
(src/citation_manager.py lines 100-102). -/
def scanSources (l : List Char) : List Nat := scanSourcesFuel l.length l

theorem scanSourcesFuel_irrel : ∀ (fuel fuel' : Nat) (l : List Char),
    l.length ≤ fuel → l.length ≤ fuel' →
    scanSourcesFuel fuel l = scanSourcesFuel fuel' l := by
  intro fuel
  induction fuel with
  | zero =>
    intro fuel' l hf _
    have : l = [] := by
      cases l with
      | nil => rfl
      | cons c r => simp at hf
    subst this
    cases fuel' <;> rfl
  | succ f ih =>
    intro fuel' l hf hf'
    cases l with
    | nil => cases fuel' <;> rfl
    | cons c rest =>
      cases fuel' with
      | zero => simp at hf'
      | succ f' =>
        have hr : rest.length ≤ f := by simp at hf; omega
        have hr' : rest.length ≤ f' := by simp at hf'; omega
        simp only [scanSourcesFuel]
        by_cases hc : c = '['
        · simp only [hc, if_pos rfl]
          rcases hm : matchSourceAfterBracket rest with - | ⟨n, r2⟩
          · exact ih f' rest hr hr'
          · have hl := matchSourceAfterBracket_length hm
            show n :: scanSourcesFuel f r2 = n :: scanSourcesFuel f' r2
            exact congrArg _ (ih f' r2 (by omega) (by omega))
        · simp only [hc, if_neg, ite_false]
          exact ih f' rest hr hr'

theorem scanSources_nil : scanSources [] = [] := rfl

theorem scanSources_cons (c : Char) (rest : List Char) :
    scanSources (c :: rest) =
      if c = '[' then
        match matchSourceAfterBracket rest with
        | some (n, r2) => n :: scanSources r2
        | none => scanSources rest
      else scanSources rest := by
  show scanSourcesFuel (rest.length + 1) (c :: rest) = _
  simp only [scanSourcesFuel]
  by_cases hc : c = '['
  · simp only [hc, if_pos rfl]
    rcases hm : matchSourceAfterBracket rest with - | ⟨n, r2⟩
    · rfl
    · have hl := matchSourceAfterBracket_length hm
      show n :: scanSourcesFuel rest.length r2 = n :: scanSources r2
      exact congrArg _ (scanSourcesFuel_irrel rest.length r2.length r2 (by omega) (le_refl _))
  · simp [hc, scanSources]

/-- Fueled leftmost non-overlapping literal replacement. -/
def replaceAllFuel (pat rep : List Char) : Nat → List Char → List Char
  | _, [] => []
  | 0, l => l
  | fuel + 1, c :: rest =>
    if pat ≠ [] ∧ pat.isPrefixOf (c :: rest) then
      rep ++ replaceAllFuel pat rep fuel ((c :: rest).drop pat.length)
    else
      c :: replaceAllFuel pat rep fuel rest

/-- Replace every occurrence of the literal pattern `pat` by `rep`,
scanning left to right and continuing after each replacement; models
Python `re.sub` applied to a literal pattern. -/
def replaceAll (pat rep : List Char) (l : List Char) : List Char :=
  replaceAllFuel pat rep l.length l

theorem replaceAllFuel_irrel (pat rep : List Char) : ∀ (fuel fuel' : Nat) (l : List Char),
    l.length ≤ fuel → l.length ≤ fuel' →
    replaceAllFuel pat rep fuel l = replaceAllFuel pat rep fuel' l := by
  intro fuel
  induction fuel with
  | zero =>
    intro fuel' l hf _
    have : l = [] := by
      cases l with
      | nil => rfl
      | cons c r => simp at hf
    subst this
    cases fuel' <;> rfl
  | succ f ih =>
    intro fuel' l hf hf'
    cases l with
    | nil => cases fuel' <;> rfl
    | cons c rest =>
      cases fuel' with
      | zero => simp at hf'
      | succ f' =>
        have hr : rest.length ≤ f := by simp at hf; omega
        have hr' : rest.length ≤ f' := by simp at hf'; omega
        simp only [replaceAllFuel]
        by_cases hp : pat ≠ [] ∧ pat.isPrefixOf (c :: rest)
        · simp only [if_pos hp]
          have hpat : 1 ≤ pat.length := by
            rcases hp with ⟨hne, -⟩
            cases pat with
            | nil => exact absurd rfl hne
            | cons p ps => simp
          have hd : ((c :: rest).drop pat.length).length ≤ f := by
            simp only [List.length_drop, List.length_cons]
            omega
          have hd' : ((c :: rest).drop pat.length).length ≤ f' := by
            simp only [List.length_drop, List.length_cons]
            omega
          rw [ih f' _ hd hd']
        · simp only [if_neg hp]
          rw [ih f' rest hr hr']

theorem replaceAll_nil (pat rep : List Char) : replaceAll pat rep [] = [] := rfl

theorem replaceAll_cons (pat rep : List Char) (c : Char) (rest : List Char) :
    replaceAll pat rep (c :: rest) =
      if pat ≠ [] ∧ pat.isPrefixOf (c :: rest) then
        rep ++ replaceAll pat rep ((c :: rest).drop pat.length)
      else
        c :: replaceAll pat rep rest := by
  show replaceAllFuel pat rep (rest.length + 1) (c :: rest) = _
  simp only [replaceAllFuel]
  by_cases hp : pat ≠ [] ∧ pat.isPrefixOf (c :: rest)
  · simp only [if_pos hp]
    have hpat : 1 ≤ pat.length := by
      rcases hp with ⟨hne, -⟩
      cases pat with
      | nil => exact absurd rfl hne
      | cons p ps => simp
    rw [replaceAllFuel_irrel pat rep rest.length ((c :: rest).drop pat.length).length _
      (by simp only [List.length_drop, List.length_cons]; omega) (le_refl _)]
    rfl
  · simp only [if_neg hp]
    rw [replaceAllFuel_irrel pat rep rest.length rest.length rest (le_refl _) (le_refl _)]
    rfl

/-- After an opening bracket, try to match `<digits>]` as the regex
`\[(\d+)\]` does: a maximal nonempty digit run followed by `]`.  Returns
the text after the closing bracket. -/
def matchBareAfterBracket (l : List Char) : Option (List Char) :=
  match l.dropWhile Char.isDigit with
  | ']' :: r2 => if l.takeWhile Char.isDigit = [] then none else some r2
  | _ => none

theorem matchBareAfterBracket_length {l r2 : List Char}
    (h : matchBareAfterBracket l = some r2) : r2.length < l.length := by
  unfold matchBareAfterBracket at h
  rcases hd : l.dropWhile Char.isDigit with - | ⟨b, r⟩
  · rw [hd] at h; simp at h
  · rw [hd] at h
    by_cases hb : b = ']'
    · subst hb
      by_cases hds : l.takeWhile Char.isDigit = []
      · simp [hds] at h
      · simp only [if_neg hds] at h
        have hr : r = r2 := by
          simpa using h
        subst hr
        have hsplit := List.takeWhile_append_dropWhile Char.isDigit l
        rw [hd] at hsplit
        have hlen := congrArg List.length hsplit
        simp at hlen
        omega
    · have : (match (b :: r : List Char) with
        | ']' :: r2 => if l.takeWhile Char.isDigit = [] then none else some r2
        | _ => (none : Option (List Char))) = none := by
        split
        · rename_i heq
          rw [List.cons.injEq] at heq
          exact absurd heq.1 hb
        · rfl
      rw [this] at h
      exact absurd h (by simp)

/-- Fueled scanner deleting bare bracketed numbers. -/
def removeBareFuel : Nat → List Char → List Char
  | _, [] => []
  | 0, l => l
  | fuel + 1, c :: rest =>
    if c = '[' then
      match matchBareAfterBracket rest with
      | some r2 => removeBareFuel fuel r2
      | none => c :: removeBareFuel fuel rest
    else c :: removeBareFuel fuel rest

/-- Remove every occurrence of a bare bracketed number `[N]`; models
`re.sub(r'\[(\d+)\]', '', text)` (src/citation_manager.py line 137): at each
opening bracket the regex matches exactly when a maximal nonempty digit run
is followed by `]`, the match is deleted, and scanning continues after
the closing bracket. -/
def removeBare (l : List Char) : List Char := removeBareFuel l.length l

theorem removeBareFuel_irrel : ∀ (fuel fuel' : Nat) (l : List Char),
    l.length ≤ fuel → l.length ≤ fuel' →
    removeBareFuel fuel l = removeBareFuel fuel' l := by
  intro fuel
  induction fuel with
  | zero =>
    intro fuel' l hf _
    have : l = [] := by
      cases l with
      | nil => rfl
      | cons c r => simp at hf
    subst this
    cases fuel' <;> rfl
  | succ f ih =>
    intro fuel' l hf hf'
    cases l with
    | nil => cases fuel' <;> rfl
    | cons c rest =>
      cases fuel' with
      | zero => simp at hf'
      | succ f' =>
        have hr : rest.length ≤ f := by simp at hf; omega
        have hr' : rest.length ≤ f' := by simp at hf'; omega
        simp only [removeBareFuel]
        by_cases hc : c = '['
        · simp only [hc, if_pos rfl]
          rcases hm : matchBareAfterBracket rest with - | r2
          · show '[' :: removeBareFuel f rest = '[' :: removeBareFuel f' rest
            exact congrArg _ (ih f' rest hr hr')
          · have hlt := matchBareAfterBracket_length hm
            exact ih f' r2 (by omega) (by omega)
        · simp only [hc, if_neg, ite_false]
          exact congrArg _ (ih f' rest hr hr')

theorem removeBare_nil : removeBare [] = [] := rfl

theorem removeBare_cons (c : Char) (rest : List Char) :
    removeBare (c :: rest) =
      if c = '[' then
        match matchBareAfterBracket rest with
        | some r2 => removeBare r2
        | none => c :: removeBare rest
      else c :: removeBare rest := by
  show removeBareFuel (rest.length + 1) (c :: rest) = _
  simp only [removeBareFuel]
  by_cases hc : c = '['
  · simp only [hc, if_pos rfl]
    rcases hm : matchBareAfterBracket rest with - | r2
    · rfl
    · have hlt := matchBareAfterBracket_length hm
      exact removeBareFuel_irrel rest.length r2.length r2 (by omega) (le_refl _)
  · simp [hc, removeBare]

/-- Fueled whitespace-run collapsing. -/
def collapseWSFuel : Nat → List Char → List Char
  | _, [] => []
  | 0, l => l
  | fuel + 1, c :: rest =>
    if isWS c then ' ' :: collapseWSFuel fuel (rest.dropWhile isWS)
    else c :: collapseWSFuel fuel rest

/-- Collapse every maximal whitespace run to a single space; models
`re.sub(r'\s+', ' ', text)` (src/citation_manager.py line 148). -/
def collapseWS (l : List Char) : List Char := collapseWSFuel l.length l

theorem collapseWSFuel_irrel : ∀ (fuel fuel' : Nat) (l : List Char),
    l.length ≤ fuel → l.length ≤ fuel' →
    collapseWSFuel fuel l = collapseWSFuel fuel' l := by
  intro fuel
  induction fuel with
  | zero =>
    intro fuel' l hf _
    have : l = [] := by
      cases l with
      | nil => rfl
      | cons c r => simp at hf
    subst this
    cases fuel' <;> rfl
  | succ f ih =>
    intro fuel' l hf hf'
    cases l with
    | nil => cases fuel' <;> rfl
    | cons c rest =>
      cases fuel' with
      | zero => simp at hf'
      | succ f' =>
        have hr : rest.length ≤ f := by simp at hf; omega
        have hr' : rest.length ≤ f' := by simp at hf'; omega
        have hdw : (rest.dropWhile isWS).length ≤ rest.length :=
          (List.dropWhile_sublist isWS).length_le
        simp only [collapseWSFuel]
        by_cases hc : isWS c
        · simp only [hc, if_pos]
          exact congrArg (List.cons ' ') (ih f' _ (by omega) (by omega))
        · simp only [hc, ite_false]
          exact congrArg (List.cons c) (ih f' rest hr hr')

theorem collapseWS_nil : collapseWS [] = [] := rfl

theorem collapseWS_cons (c : Char) (rest : List Char) :
    collapseWS (c :: rest) =
      if isWS c then ' ' :: collapseWS (rest.dropWhile isWS)
      else c :: collapseWS rest := by
  show collapseWSFuel (rest.length + 1) (c :: rest) = _
  have hdw : (rest.dropWhile isWS).length ≤ rest.length :=
    (List.dropWhile_sublist isWS).length_le
  simp only [collapseWSFuel]
  by_cases hc : isWS c
  · simp only [hc, if_pos]
    exact congrArg (List.cons ' ') (collapseWSFuel_irrel rest.length _ _ (by omega) (le_refl _))
  · simp only [hc, ite_false]
    rfl

/-- Remove leading and trailing whitespace; models `str.strip()`
(src/citation_manager.py line 148). -/
def stripWS (l : List Char) : List Char :=
  ((l.dropWhile isWS).reverse.dropWhile isWS).reverse

/-- A retrieved chunk surfaced for one query (src/citation_models.py,
class Citation).  The relevance score is modelled over the rationals. -/
structure Citation where
  sourceNum : Nat
  filename : List Char
  page : List Char
  sourceId : List Char
  relevanceScore : Option ℚ
  content : List Char
deriving DecidableEq

/-- A citation actually used by the LLM response, renumbered sequentially
(src/citation_models.py, class RenumberedCitation). -/
structure RenumberedCitation where
  newSourceNum : Nat
  originalSourceNum : Nat
  filename : List Char
  page : List Char
  relevanceScore : Option ℚ
  content : List Char
deriving DecidableEq

/-- The filtering loop of `process_response` (src/citation_manager.py lines
105-110): keep each cited number on first appearance when it lies in
`[1, k]`, tracking the numbers already added to `seen`. -/
def dedupValid (k : Nat) (seen : List Nat) : List Nat → List Nat
  | [] => []
  | n :: rest =>
    if n ∉ seen ∧ 1 ≤ n ∧ n ≤ k then n :: dedupValid k (n :: seen) rest
    else dedupValid k seen rest

/-- Step 1 of the renumbering (src/citation_manager.py lines 122-127):
replace each valid marker `[Source orig]` by the placeholder
`__TEMP_SOURCE_new__`, iterating over the renumber map in insertion order;
`pairs` lists `(new, orig)`. -/
def renumberStep1 (pairs : List (Nat × Nat)) (t : List Char) : List Char :=
  pairs.foldl (fun t p => replaceAll (srcMarker p.2) (tempMarker p.1) t) t

/-- Step 2 (lines 131-133): delete `[Source num]` for every cited number
outside `[1, k]`, iterating over the raw cited list. -/
def renumberStep2 (k : Nat) (cited : List Nat) (t : List Char) : List Char :=
  cited.foldl (fun t n => if n < 1 ∨ k < n then replaceAll (srcMarker n) [] t else t) t

/-- Step 3 (lines 140-145): replace each placeholder `__TEMP_SOURCE_new__`
by the final marker `[Source new]`. -/
def renumberStep3 (pairs : List (Nat × Nat)) (t : List Char) : List Char :=
  pairs.foldl (fun t p => replaceAll (tempMarker p.1) (srcMarker p.1) t) t

/-- `CitationManager.process_response` (src/citation_manager.py lines
95-167).  The registry dictionary `self.lookup = {c.source_num: c}` is
modelled by the function `lookup`; the registry construction
(`_create_initial_citations`) numbers the citations `1..k`, so the callers
guarantee `(lookup n).sourceNum = n` for every rank `n` in `[1, k]`.
Returns the renumbered response text and the list of used citations. -/
def processResponse (lookup : Nat → Citation) (k : Nat) (text : List Char) :
    List Char × List RenumberedCitation :=
  let cited := scanSources text
  let usedCits : List Citation := (dedupValid k [] cited).map lookup
  if usedCits = [] then (text, [])
  else
    let pairs : List (Nat × Nat) :=
      (usedCits.enumFrom 1).map (fun p => (p.1, p.2.sourceNum))
    let t1 := renumberStep1 pairs text
    let t2 := renumberStep2 k cited t1
    let t3 := removeBare t2
    let t4 := renumberStep3 pairs t3
    let out := stripWS (collapseWS t4)
    (out, (usedCits.enumFrom 1).map (fun p =>
      { newSourceNum := p.1
        originalSourceNum := p.2.sourceNum
        filename := p.2.filename
        page := p.2.page
        relevanceScore := p.2.relevanceScore
        content := p.2.content }))

/-! ### Properties of the deduplication loop -/

theorem mem_dedupValid (k : Nat) :
    ∀ (l seen : List Nat) (a : Nat),
      a ∈ dedupValid k seen l ↔ (a ∈ l ∧ a ∉ seen ∧ 1 ≤ a ∧ a ≤ k) := by
  intro l
  induction l with
  | nil => intro seen a; simp [dedupValid]
  | cons n rest ih =>
    intro seen a
    simp only [dedupValid]
    by_cases hkeep : n ∉ seen ∧ 1 ≤ n ∧ n ≤ k
    · simp only [if_pos hkeep, List.mem_cons]
      constructor
      · rintro (rfl | ha)
        · exact ⟨Or.inl rfl, hkeep⟩
        · obtain ⟨h1, h2, h3⟩ := (ih (n :: seen) a).mp ha
          refine ⟨Or.inr h1, fun hs => h2 (List.mem_cons_of_mem _ hs), h3⟩
      · rintro ⟨hmem, hns, hv⟩
        by_cases han : a = n
        · exact Or.inl han
        · rcases hmem with rfl | hmem'
          · exact Or.inl rfl
          · refine Or.inr ((ih (n :: seen) a).mpr ⟨hmem', ?_, hv⟩)
            intro hs
            rcases List.mem_cons.mp hs with h | h
            · exact han h
            · exact hns h
    · simp only [if_neg hkeep]
      rw [ih seen a]
      constructor
      · rintro ⟨h1, h2, h3⟩
        exact ⟨List.mem_cons_of_mem _ h1, h2, h3⟩
      · rintro ⟨hmem, hns, hv⟩
        rcases List.mem_cons.mp hmem with rfl | hmem'
        · exact absurd ⟨hns, hv⟩ hkeep
        · exact ⟨hmem', hns, hv⟩

theorem nodup_dedupValid (k : Nat) :
    ∀ (l seen : List Nat), (dedupValid k seen l).Nodup := by
  intro l
  induction l with
  | nil => intro seen; simp [dedupValid]
  | cons n rest ih =>
    intro seen
    simp only [dedupValid]
    by_cases hkeep : n ∉ seen ∧ 1 ≤ n ∧ n ≤ k
    · simp only [if_pos hkeep]
      refine List.Nodup.cons ?_ (ih (n :: seen))
      intro hmem
      obtain ⟨-, h2, -⟩ := (mem_dedupValid k rest (n :: seen) n).mp hmem
      exact h2 (List.mem_cons_self _ _)
    · simp only [if_neg hkeep]
      exact ih seen

theorem dedupValid_eq_nil (k : Nat) :
    ∀ (l seen : List Nat), (∀ n ∈ l, ¬(1 ≤ n ∧ n ≤ k)) → dedupValid k seen l = [] := by
  intro l
  induction l with
  | nil => intro seen _; rfl
  | cons n rest ih =>
    intro seen h
    simp only [dedupValid]
    have hn : ¬(1 ≤ n ∧ n ≤ k) := h n (List.mem_cons_self _ _)
    rw [if_neg (by tauto)]
    exact ih seen (fun m hm => h m (List.mem_cons_of_mem _ hm))

theorem dedupValid_indexOf_lt (k : Nat) :
    ∀ (l seen : List Nat) (A B : Nat),
      A ∈ dedupValid k seen l → B ∈ dedupValid k seen l →
      List.indexOf A l < List.indexOf B l →
      List.indexOf A (dedupValid k seen l) < List.indexOf B (dedupValid k seen l) := by
  intro l
  induction l with
  | nil => intro seen A B hA _ _; simp [dedupValid] at hA
  | cons n rest ih =>
    intro seen A B hA hB hlt
    have hAB : A ≠ B := by
      intro h; subst h; exact lt_irrefl _ hlt
    simp only [dedupValid] at hA hB ⊢
    by_cases hkeep : n ∉ seen ∧ 1 ≤ n ∧ n ≤ k
    · simp only [if_pos hkeep] at hA hB ⊢
      by_cases hAn : A = n
      · subst hAn
        have hBn : B ≠ A := fun h => hAB h.symm
        have hBmem : B ∈ dedupValid k (A :: seen) rest := by
          rcases List.mem_cons.mp hB with h | h
          · exact absurd h hBn
          · exact h
        rw [List.indexOf_cons_self, List.indexOf_cons_ne _ (fun h => hBn h.symm)]
        exact Nat.succ_pos _
      · have hBn : B ≠ n := by
          intro h
          subst h
          rw [List.indexOf_cons_self] at hlt
          exact Nat.not_lt_zero _ hlt
        have hAmem : A ∈ dedupValid k (n :: seen) rest := by
          rcases List.mem_cons.mp hA with h | h
          · exact absurd h hAn
          · exact h
        have hBmem : B ∈ dedupValid k (n :: seen) rest := by
          rcases List.mem_cons.mp hB with h | h
          · exact absurd h hBn
          · exact h
        rw [List.indexOf_cons_ne _ (fun h => hAn h.symm),
            List.indexOf_cons_ne _ (fun h => hBn h.symm)] at hlt
        rw [List.indexOf_cons_ne _ (fun h => hAn h.symm),
            List.indexOf_cons_ne _ (fun h => hBn h.symm)]
        exact Nat.succ_lt_succ (ih (n :: seen) A B hAmem hBmem (Nat.lt_of_succ_lt_succ hlt))
    · simp only [if_neg hkeep] at hA hB ⊢
      have hAn : A ≠ n := by
        intro h
        subst h
        obtain ⟨-, h2, h3⟩ := (mem_dedupValid k rest seen A).mp hA
        exact hkeep ⟨h2, h3⟩
      have hBn : B ≠ n := by
        intro h
        subst h
        obtain ⟨-, h2, h3⟩ := (mem_dedupValid k rest seen B).mp hB
        exact hkeep ⟨h2, h3⟩
      rw [List.indexOf_cons_ne _ (fun h => hAn h.symm),
          List.indexOf_cons_ne _ (fun h => hBn h.symm)] at hlt
      exact ih seen A B hA hB (Nat.lt_of_succ_lt_succ hlt)

/-! ### Shape of `processResponse` -/

theorem processResponse_of_nil (lookup : Nat → Citation) (k : Nat) (text : List Char)
    (h : dedupValid k [] (scanSources text) = []) :
    processResponse lookup k text = (text, []) := by
  simp [processResponse, h]

theorem processResponse_fst (lookup : Nat → Citation) (k : Nat) (text : List Char)
    (h : dedupValid k [] (scanSources text) ≠ []) :
    (processResponse lookup k text).1 =
      stripWS (collapseWS (renumberStep3
        ((((dedupValid k [] (scanSources text)).map lookup).enumFrom 1).map
          (fun p => (p.1, p.2.sourceNum)))
        (removeBare (renumberStep2 k (scanSources text)
          (renumberStep1
            ((((dedupValid k [] (scanSources text)).map lookup).enumFrom 1).map
              (fun p => (p.1, p.2.sourceNum)))
            text))))) := by
  have h' : (dedupValid k [] (scanSources text)).map lookup ≠ [] := by
    simpa [List.map_eq_nil_iff] using h
  simp only [processResponse, if_neg h']

theorem processResponse_snd (lookup : Nat → Citation) (k : Nat) (text : List Char) :
    (processResponse lookup k text).2 =
      ((dedupValid k [] (scanSources text)).enumFrom 1).map (fun p =>
        { newSourceNum := p.1
          originalSourceNum := (lookup p.2).sourceNum
          filename := (lookup p.2).filename
          page := (lookup p.2).page
          relevanceScore := (lookup p.2).relevanceScore
          content := (lookup p.2).content }) := by
  by_cases h : dedupValid k [] (scanSources text) = []
  · rw [processResponse_of_nil lookup k text h, h]
    rfl
  · have h' : (dedupValid k [] (scanSources text)).map lookup ≠ [] := by
      simpa [List.map_eq_nil_iff] using h
    simp only [processResponse, if_neg h']
    rw [List.enumFrom_map, List.map_map]
    rfl

/-- A registry lookup of the shape built by `CitationManager.__init__`:
`self.lookup = {c.source_num: c}`, so the citation found under rank `n`
carries `source_num = n`.  Used to instantiate concrete scenarios. -/
def mkLookup (n : Nat) : Citation :=
  { sourceNum := n
    filename := []
    page := []
    sourceId := []
    relevanceScore := none
    content := [] }

theorem mkLookup_sourceNum (n : Nat) (h1 : 1 ≤ n) (h2 : n ≤ 5) :
    (mkLookup n).sourceNum = n := rfl

/-! ### Claim C5 -/

/-- Claim C5: for every response text in which no valid citation marker
occurs (no `[Source N]` with `N` in `[1, k]`, including the case of no
markers at all and the case `k = 0`), `process_response` returns the
original response text completely unchanged together with an empty citation
list; the function is total, so no error is raised. -/
theorem c5_no_valid_citation_unchanged
    (lookup : Nat → Citation) (k : Nat) (text : List Char)
    (h : ∀ n ∈ scanSources text, ¬(1 ≤ n ∧ n ≤ k)) :
    processResponse lookup k text = (text, []) :=
  processResponse_of_nil lookup k text (dedupValid_eq_nil k (scanSources text) [] h)

theorem c5_no_valid_citation_unchanged_witness :
    (∀ n ∈ scanSources ("Hello [Source 7], bye.").data, ¬(1 ≤ n ∧ n ≤ 3))
    ∧ processResponse mkLookup 3 ("Hello [Source 7], bye.").data =
        (("Hello [Source 7], bye.").data, []) :=
  ⟨by decide, c5_no_valid_citation_unchanged mkLookup 3 _ (by decide)⟩

/-! ### Claim C2 -/

/-- Claim C2: with `k = 3`, `process_response` applied to
`A[Source 2]. B[Source 1][Source 2]. C[Source 9].` returns the renumbered
text `A[Source 1]. B[Source 2][Source 1]. C.` and the citation list
`[(new 1, original 2), (new 2, original 1)]`, for any registry whose lookup
is keyed by `source_num`. -/
theorem c2_scenario (lookup : Nat → Citation)
    (hl : ∀ n, 1 ≤ n → n ≤ 3 → (lookup n).sourceNum = n) :
    (processResponse lookup 3 ("A[Source 2]. B[Source 1][Source 2]. C[Source 9].").data).1 =
      ("A[Source 1]. B[Source 2][Source 1]. C.").data
    ∧ (processResponse lookup 3
        ("A[Source 2]. B[Source 1][Source 2]. C[Source 9].").data).2.map
        (fun c => (c.newSourceNum, c.originalSourceNum)) = [(1, 2), (2, 1)] := by
  have h2 : (lookup 2).sourceNum = 2 := hl 2 (by decide) (by decide)
  have h1 : (lookup 1).sourceNum = 1 := hl 1 (by decide) (by decide)
  have hscan :
      scanSources ("A[Source 2]. B[Source 1][Source 2]. C[Source 9].").data = [2, 1, 2, 9] := by
    decide
  have hdedup :
      dedupValid 3 []
        (scanSources ("A[Source 2]. B[Source 1][Source 2]. C[Source 9].").data) = [2, 1] := by
    rw [hscan]; decide
  constructor
  · rw [processResponse_fst lookup 3 _ (by rw [hdedup]; simp)]
    rw [hdedup, hscan]
    simp only [List.map_cons, List.map_nil, List.enumFrom]
    rw [h1, h2]
    decide
  · rw [processResponse_snd, hdedup]
    simp only [List.enumFrom, List.map_cons, List.map_nil]
    rw [h1, h2]

theorem c2_scenario_witness :
    (∀ n, 1 ≤ n → n ≤ 3 → (mkLookup n).sourceNum = n)
    ∧ (processResponse mkLookup 3
        ("A[Source 2]. B[Source 1][Source 2]. C[Source 9].").data).1 =
        ("A[Source 1]. B[Source 2][Source 1]. C.").data :=
  ⟨fun n h1 h2 => rfl, (c2_scenario mkLookup (fun n h1 h2 => rfl)).1⟩

/-! ### Claim C1 -/

/-- Claim C1: for every response text and every registry with `k` citations
(keyed by `source_num`), the returned citation list satisfies: the
`new_source_num` values are exactly `1, 2, ..., m` in order, where `m` is
the number of distinct valid original numbers; the original numbers are
pairwise distinct and are exactly the numbers occurring as `[Source N]`
markers in the text that lie in `[1, k]`; and when the first occurrence of
valid original `A` precedes the first occurrence of valid original `B` in
the text (equivalently, `A` comes first in the left-to-right scan
`scanSources`), then `new(A) < new(B)`. -/
theorem c1_bijection_first_appearance
    (lookup : Nat → Citation) (k : Nat) (text : List Char)
    (hl : ∀ n, 1 ≤ n → n ≤ k → (lookup n).sourceNum = n) :
    ((processResponse lookup k text).2.map (fun c => c.newSourceNum) =
      List.range' 1 ((processResponse lookup k text).2.map
        (fun c => c.originalSourceNum)).length)
    ∧ ((processResponse lookup k text).2.map (fun c => c.originalSourceNum)).Nodup
    ∧ (∀ n, n ∈ (processResponse lookup k text).2.map (fun c => c.originalSourceNum) ↔
        (n ∈ scanSources text ∧ 1 ≤ n ∧ n ≤ k))
    ∧ (∀ a b, a ∈ (processResponse lookup k text).2 →
        b ∈ (processResponse lookup k text).2 →
        List.indexOf a.originalSourceNum (scanSources text) <
          List.indexOf b.originalSourceNum (scanSources text) →
        a.newSourceNum < b.newSourceNum) := by
  have hsnd := processResponse_snd lookup k text
  have hmemsnd : ∀ p ∈ (dedupValid k [] (scanSources text)).enumFrom 1,
      p.2 ∈ dedupValid k [] (scanSources text) := by
    intro p hp
    have := List.mem_map_of_mem Prod.snd hp
    rwa [List.enumFrom_map_snd] at this
  have hlook : ∀ p ∈ (dedupValid k [] (scanSources text)).enumFrom 1,
      (lookup p.2).sourceNum = p.2 := by
    intro p hp
    obtain ⟨-, -, h3, h4⟩ :=
      (mem_dedupValid k (scanSources text) [] p.2).mp (hmemsnd p hp)
    exact hl p.2 h3 h4
  have horig : (processResponse lookup k text).2.map (fun c => c.originalSourceNum) =
      dedupValid k [] (scanSources text) := by
    rw [hsnd, List.map_map]
    have : ∀ p ∈ (dedupValid k [] (scanSources text)).enumFrom 1,
        ((fun c => c.originalSourceNum) ∘ (fun p =>
          ({ newSourceNum := p.1
             originalSourceNum := (lookup p.2).sourceNum
             filename := (lookup p.2).filename
             page := (lookup p.2).page
             relevanceScore := (lookup p.2).relevanceScore
             content := (lookup p.2).content } : RenumberedCitation))) p = Prod.snd p := by
      intro p hp
      exact hlook p hp
    rw [List.map_congr_left this, List.enumFrom_map_snd]
  have hnew : (processResponse lookup k text).2.map (fun c => c.newSourceNum) =
      List.range' 1 (dedupValid k [] (scanSources text)).length := by
    rw [hsnd, List.map_map]
    exact List.enumFrom_map_fst 1 (dedupValid k [] (scanSources text))
  refine ⟨?_, ?_, ?_, ?_⟩
  · rw [hnew, horig]
  · rw [horig]
    exact nodup_dedupValid k (scanSources text) []
  · intro n
    rw [horig, mem_dedupValid]
    simp
  · intro a b ha hb hlt
    rw [hsnd] at ha hb
    obtain ⟨pa, hpa, rfl⟩ := List.mem_map.mp ha
    obtain ⟨pb, hpb, rfl⟩ := List.mem_map.mp hb
    simp only [] at hlt ⊢
    rw [hlook pa hpa] at hlt
    rw [hlook pb hpb] at hlt
    show pa.1 < pb.1
    obtain ⟨hpa1, hpa2, hpa3⟩ := List.mem_enumFrom hpa
    obtain ⟨hpb1, hpb2, hpb3⟩ := List.mem_enumFrom hpb
    have hnd := nodup_dedupValid k (scanSources text) []
    have hiA : List.indexOf pa.2 (dedupValid k [] (scanSources text)) = pa.1 - 1 := by
      have hlen : pa.1 - 1 < (dedupValid k [] (scanSources text)).length := by omega
      have := List.get_indexOf hnd ⟨pa.1 - 1, hlen⟩
      simp only [List.get_eq_getElem] at this
      rw [← hpa3] at this
      exact this
    have hiB : List.indexOf pb.2 (dedupValid k [] (scanSources text)) = pb.1 - 1 := by
      have hlen : pb.1 - 1 < (dedupValid k [] (scanSources text)).length := by omega
      have := List.get_indexOf hnd ⟨pb.1 - 1, hlen⟩
      simp only [List.get_eq_getElem] at this
      rw [← hpb3] at this
      exact this
    have horder := dedupValid_indexOf_lt k (scanSources text) [] pa.2 pb.2
      (hmemsnd pa hpa) (hmemsnd pb hpb) hlt
    rw [hiA, hiB] at horder
    omega

theorem c1_bijection_first_appearance_witness :
    (∀ n, 1 ≤ n → n ≤ 5 → (mkLookup n).sourceNum = n)
    ∧ ((processResponse mkLookup 5 ("x[Source 3]y[Source 1]").data).2.map
        (fun c => c.newSourceNum) = [1, 2]) := by
  refine ⟨fun n h1 h2 => rfl, ?_⟩
  have h := (c1_bijection_first_appearance mkLookup 5 ("x[Source 3]y[Source 1]").data
    (fun n h1 h2 => rfl)).1
  rw [h]
  decide

/-! ### Whitespace properties of the final cleanup (claim C10) -/

theorem head?_dropWhile_false {p : Char → Bool} {l : List Char} {c : Char}
    (h : (l.dropWhile p).head? = some c) : p c = false := by
  have := List.head?_dropWhile_not p l
  rw [h] at this
  exact this

theorem collapseWS_mem_ws :
    ∀ (l : List Char), ∀ c ∈ collapseWS l, isWS c → c = ' ' := by
  have H : ∀ (n : Nat) (l : List Char), l.length ≤ n →
      ∀ c ∈ collapseWS l, isWS c → c = ' ' := by
    intro n
    induction n with
    | zero =>
      intro l hl c hc _
      have : l = [] := by cases l with | nil => rfl | cons a r => simp at hl
      subst this
      simp [collapseWS_nil] at hc
    | succ n ih =>
      intro l hl c hc hw
      cases l with
      | nil => simp [collapseWS_nil] at hc
      | cons a rest =>
        rw [collapseWS_cons] at hc
        by_cases ha : isWS a
        · rw [if_pos ha] at hc
          rcases List.mem_cons.mp hc with rfl | hc'
          · rfl
          · have hdl : (rest.dropWhile isWS).length ≤ n := by
              have := (List.dropWhile_sublist (l := rest) isWS).length_le
              simp at hl
              omega
            exact ih (rest.dropWhile isWS) hdl c hc' hw
        · rw [if_neg ha] at hc
          rcases List.mem_cons.mp hc with rfl | hc'
          · exact absurd hw (by simpa using ha)
          · exact ih rest (by simp at hl; omega) c hc' hw
  exact fun l => H l.length l (le_refl _)

theorem head?_collapseWS_of_not_ws {m : List Char} {d : Char}
    (hm : m.head? = some d) (hd : ¬ isWS d) : (collapseWS m).head? = some d := by
  cases m with
  | nil => simp at hm
  | cons a rest =>
    simp only [List.head?_cons, Option.some.injEq] at hm
    subst hm
    rw [collapseWS_cons, if_neg hd]
    rfl

theorem collapseWS_of_head?_none {m : List Char} (hm : m.head? = none) :
    collapseWS m = [] := by
  cases m with
  | nil => rfl
  | cons a rest => simp at hm

theorem collapseWS_chain :
    ∀ (l : List Char), List.Chain' (fun a b => ¬(isWS a ∧ isWS b)) (collapseWS l) := by
  have H : ∀ (n : Nat) (l : List Char), l.length ≤ n →
      List.Chain' (fun a b => ¬(isWS a ∧ isWS b)) (collapseWS l) := by
    intro n
    induction n with
    | zero =>
      intro l hl
      have : l = [] := by cases l with | nil => rfl | cons a r => simp at hl
      subst this
      simp [collapseWS_nil]
    | succ n ih =>
      intro l hl
      cases l with
      | nil => simp [collapseWS_nil]
      | cons a rest =>
        rw [collapseWS_cons]
        by_cases ha : isWS a
        · rw [if_pos ha]
          have hdl : (rest.dropWhile isWS).length ≤ n := by
            have := (List.dropWhile_sublist (l := rest) isWS).length_le
            simp at hl
            omega
          refine List.chain'_cons'.mpr ⟨?_, ih _ hdl⟩
          intro y hy
          rintro ⟨-, hwy⟩
          cases hm : (rest.dropWhile isWS).head? with
          | none =>
            rw [collapseWS_of_head?_none hm] at hy
            simp at hy
          | some d =>
            have hdnw : isWS d = false := head?_dropWhile_false hm
            have := head?_collapseWS_of_not_ws hm (by simp [hdnw])
            rw [this] at hy
            simp only [Option.mem_def, Option.some.injEq] at hy
            subst hy
            simp [hdnw] at hwy
        · rw [if_neg ha]
          refine List.chain'_cons'.mpr ⟨?_, ih rest (by simp at hl; omega)⟩
          intro y _
          rintro ⟨hwa, -⟩
          exact ha hwa
  exact fun l => H l.length l (le_refl _)

theorem stripWS_isInfixOfSelf (l : List Char) : stripWS l <:+: l := by
  obtain ⟨s, hs⟩ : l.dropWhile isWS <:+ l := List.dropWhile_suffix isWS
  obtain ⟨s2, hs2⟩ : (l.dropWhile isWS).reverse.dropWhile isWS <:+
      (l.dropWhile isWS).reverse := List.dropWhile_suffix isWS
  refine ⟨s, s2.reverse, ?_⟩
  have : l.dropWhile isWS = stripWS l ++ s2.reverse := by
    have h := congrArg List.reverse hs2
    simp only [List.reverse_append, List.reverse_reverse] at h
    rw [← h]
    rfl
  rw [List.append_assoc, ← this, hs]

theorem stripWS_head_not_ws {l : List Char} {c : Char}
    (h : (stripWS l).head? = some c) : isWS c = false := by
  unfold stripWS at h
  obtain ⟨s2, hs2⟩ : (l.dropWhile isWS).reverse.dropWhile isWS <:+
      (l.dropWhile isWS).reverse := List.dropWhile_suffix isWS
  have hpre : stripWS l <+: l.dropWhile isWS := by
    have h' := congrArg List.reverse hs2
    simp only [List.reverse_append, List.reverse_reverse] at h'
    exact ⟨s2.reverse, by rw [← h']; rfl⟩
  obtain ⟨t, ht⟩ := hpre
  have : (stripWS l ++ t).head? = (l.dropWhile isWS).head? := by rw [ht]
  rw [List.head?_append] at this
  unfold stripWS at this
  rw [h] at this
  exact head?_dropWhile_false this.symm

theorem stripWS_getLast_not_ws {l : List Char} {c : Char}
    (h : (stripWS l).getLast? = some c) : isWS c = false := by
  unfold stripWS at h
  rw [List.getLast?_reverse] at h
  exact head?_dropWhile_false h

/-! ### Claim C10 -/

/-- Claim C10: whenever at least one valid citation marker occurs in the
response text, the renumbered text returned by `process_response` contains
no newline, every whitespace character in it is a plain space, no two
consecutive characters are both whitespace, and it has no leading or
trailing whitespace: the final cleanup collapses whitespace across the
whole response, also in regions untouched by marker removal. -/
theorem c10_output_whitespace_collapsed
    (lookup : Nat → Citation) (k : Nat) (text : List Char)
    (h : ∃ n ∈ scanSources text, 1 ≤ n ∧ n ≤ k) :
    ('\n' ∉ (processResponse lookup k text).1)
    ∧ (∀ c ∈ (processResponse lookup k text).1, isWS c → c = ' ')
    ∧ List.Chain' (fun a b => ¬(isWS a ∧ isWS b)) (processResponse lookup k text).1
    ∧ (∀ c, ((processResponse lookup k text).1).head? = some c → isWS c = false)
    ∧ (∀ c, ((processResponse lookup k text).1).getLast? = some c → isWS c = false) := by
  obtain ⟨n, hmem, hv1, hv2⟩ := h
  have hne : dedupValid k [] (scanSources text) ≠ [] := by
    intro hnil
    have : n ∈ dedupValid k [] (scanSources text) :=
      (mem_dedupValid k (scanSources text) [] n).mpr ⟨hmem, by simp, hv1, hv2⟩
    rw [hnil] at this
    simp at this
  rw [processResponse_fst lookup k text hne]
  set t4 := renumberStep3
    ((((dedupValid k [] (scanSources text)).map lookup).enumFrom 1).map
      (fun p => (p.1, p.2.sourceNum)))
    (removeBare (renumberStep2 k (scanSources text)
      (renumberStep1
        ((((dedupValid k [] (scanSources text)).map lookup).enumFrom 1).map
          (fun p => (p.1, p.2.sourceNum)))
        text))) with ht4
  have hmemout : ∀ c ∈ stripWS (collapseWS t4), isWS c → c = ' ' := by
    intro c hc hw
    have hsub : c ∈ collapseWS t4 :=
      ( List.Sublist.subset ( List.IsInfix.sublist (stripWS_isInfixOfSelf _))) hc
    exact collapseWS_mem_ws t4 c hsub hw
  refine ⟨?_, hmemout, ?_, ?_, ?_⟩
  · intro hmem'
    have := hmemout '\n' hmem' (by decide)
    exact absurd this (by decide)
  · exact List.Chain'.infix (collapseWS_chain t4) (stripWS_isInfixOfSelf _)
  · intro c hc
    exact stripWS_head_not_ws hc
  · intro c hc
    exact stripWS_getLast_not_ws hc

theorem c10_output_whitespace_collapsed_witness :
    (∃ n ∈ scanSources ("  A  [Source 2]\n\nB  ").data, 1 ≤ n ∧ n ≤ 5)
    ∧ ('\n' ∉ (processResponse mkLookup 5 ("  A  [Source 2]\n\nB  ").data).1) := by
  refine ⟨by decide, ?_⟩
  exact (c10_output_whitespace_collapsed mkLookup 5 ("  A  [Source 2]\n\nB  ").data
    (by decide)).1

/-! ### Chunk identity serialization and parsing (claim C8) -/

/-- Split a string at every colon, as Python `source_id.split(":")` does
(src/citation_manager.py line 24): `n` colons yield `n + 1` parts. -/
def splitColon : List Char → List (List Char)
  | [] => [[]]
  | c :: rest =>
    if c = ':' then [] :: splitColon rest
    else
      match splitColon rest with
      | p :: ps => (c :: p) :: ps
      | [] => [[c]]

/-- The serialized composite chunk identity
`source:page_number:paragraph_num:chunk_index`, as produced by
`calculate_chunk_ids` (src/processing.py lines 262 and 271). -/
def chunkId (source : List Char) (page para idx : Nat) : List Char :=
  source ++ ':' :: (natToDigits page ++ ':' :: (natToDigits para ++ ':' :: natToDigits idx))

/-- The four components recovered by `_create_initial_citations`
(src/citation_manager.py lines 24-28): split the id on `:` and, when at
least four parts result, take the first four as
file path, page, paragraph and chunk. -/
def parseSourceId (id : List Char) :
    Option (List Char × List Char × List Char × List Char) :=
  match splitColon id with
  | a :: b :: c :: d :: _ => some (a, b, c, d)
  | _ => none

theorem splitColon_append_colon (s t : List Char) (hs : ':' ∉ s) :
    splitColon (s ++ ':' :: t) = s :: splitColon t := by
  induction s with
  | nil => simp [splitColon]
  | cons c s' ih =>
    have hc : c ≠ ':' := by
      intro h
      exact hs (h ▸ List.mem_cons_self _ _)
    have hs' : ':' ∉ s' := fun h => hs (List.mem_cons_of_mem _ h)
    simp only [List.cons_append, splitColon, if_neg hc]
    rw [show s'.append (':' :: t) = s' ++ ':' :: t from rfl, ih hs']

theorem splitColon_no_colon (s : List Char) (hs : ':' ∉ s) :
    splitColon s = [s] := by
  induction s with
  | nil => rfl
  | cons c s' ih =>
    have hc : c ≠ ':' := by
      intro h
      exact hs (h ▸ List.mem_cons_self _ _)
    have hs' : ':' ∉ s' := fun h => hs (List.mem_cons_of_mem _ h)
    simp only [splitColon, if_neg hc]
    rw [ih hs']

theorem digitChar_isDigit {d : Nat} (h : d < 10) : (Nat.digitChar d).isDigit = true := by
  interval_cases d <;> decide

theorem natToDigitsAux_digits :
    ∀ (fuel n : Nat), ∀ c ∈ natToDigitsAux fuel n, c.isDigit = true := by
  intro fuel
  induction fuel with
  | zero => intro n c hc; simp [natToDigitsAux] at hc
  | succ f ih =>
    intro n c hc
    simp only [natToDigitsAux] at hc
    by_cases hn : n < 10
    · rw [if_pos hn] at hc
      rcases List.mem_cons.mp hc with rfl | h
      · exact digitChar_isDigit hn
      · simp at h
    · rw [if_neg hn] at hc
      rcases List.mem_append.mp hc with h | h
      · exact ih (n / 10) c h
      · rcases List.mem_cons.mp h with rfl | h'
        · exact digitChar_isDigit (Nat.mod_lt _ (by omega))
        · simp at h'

theorem colon_not_mem_natToDigits (n : Nat) : ':' ∉ natToDigits n := by
  intro h
  have := natToDigitsAux_digits (n + 1) n ':' h
  simp [Char.isDigit] at this

/-- Claim C8, amended: the serialize/parse round trip over the composite
chunk identity recovers all four fields for every document path that
contains no colon (the counterexample shows it fails for paths containing
`:`, since the parse splits on every colon). -/
theorem c8_chunk_identity_roundtrip (source : List Char) (page para idx : Nat)
    (hs : ':' ∉ source) :
    parseSourceId (chunkId source page para idx) =
      some (source, natToDigits page, natToDigits para, natToDigits idx) := by
  unfold parseSourceId chunkId
  rw [splitColon_append_colon _ _ hs,
      splitColon_append_colon _ _ (colon_not_mem_natToDigits page),
      splitColon_append_colon _ _ (colon_not_mem_natToDigits para),
      splitColon_no_colon _ (colon_not_mem_natToDigits idx)]

theorem c8_chunk_identity_roundtrip_witness :
    (':' ∉ ("data/monopoly.pdf").data)
    ∧ parseSourceId (chunkId ("data/monopoly.pdf").data 6 2 1) =
        some (("data/monopoly.pdf").data, natToDigits 6, natToDigits 2, natToDigits 1) :=
  ⟨by decide, c8_chunk_identity_roundtrip ("data/monopoly.pdf").data 6 2 1 (by decide)⟩

/-- Counterexample to claim C8 as stated: for the document path `a:b`
(which contains a colon) the parse of the serialized identity does not
recover the original four fields. -/
theorem c8_counterexample :
    parseSourceId (chunkId ['a', ':', 'b'] 1 2 3) ≠
      some (['a', ':', 'b'], natToDigits 1, natToDigits 2, natToDigits 3) := by
  decide

/-! ### Relevance score computation (claim C9) -/

/-- Round-half-to-even to the nearest integer, the tie-breaking rule of
Python `round`. -/
def roundHalfEven (q : ℚ) : ℤ :=
  if Int.fract q < 1 / 2 then ⌊q⌋
  else if 1 / 2 < Int.fract q then ⌊q⌋ + 1
  else if Even ⌊q⌋ then ⌊q⌋ else ⌊q⌋ + 1

/-- `round(x, 3)`: round to the nearest multiple of `1/1000`, ties to
even.  Models the Python built-in `round` with 3 digits over the
rationals. -/
def round3 (q : ℚ) : ℚ := (roundHalfEven (q * 1000) : ℚ) / 1000

/-- The relevance score stored by `_create_initial_citations`
(src/citation_manager.py line 54):
`round(1 - score, 3) if score is not None else None`. -/
def relevanceScoreOf (score : Option ℚ) : Option ℚ :=
  match score with
  | none => none
  | some d => some (round3 (1 - d))

theorem roundHalfEven_cases (q : ℚ) :
    roundHalfEven q = ⌊q⌋ ∨ roundHalfEven q = ⌊q⌋ + 1 := by
  unfold roundHalfEven
  by_cases h1 : Int.fract q < 1 / 2
  · rw [if_pos h1]; exact Or.inl rfl
  · rw [if_neg h1]
    by_cases h2 : 1 / 2 < Int.fract q
    · rw [if_pos h2]; exact Or.inr rfl
    · rw [if_neg h2]
      by_cases h3 : Even ⌊q⌋
      · rw [if_pos h3]; exact Or.inl rfl
      · rw [if_neg h3]; exact Or.inr rfl

theorem roundHalfEven_err (q : ℚ) : |(roundHalfEven q : ℚ) - q| ≤ 1 / 2 := by
  have hfr0 : 0 ≤ Int.fract q := Int.fract_nonneg q
  have hfr1 : Int.fract q < 1 := Int.fract_lt_one q
  have hfloor : (⌊q⌋ : ℚ) = q - Int.fract q := by
    rw [Int.self_sub_fract]
  unfold roundHalfEven
  by_cases h1 : Int.fract q < 1 / 2
  · rw [if_pos h1, hfloor, abs_le]
    constructor <;> [linarith; linarith]
  · rw [if_neg h1]
    push_neg at h1
    by_cases h2 : 1 / 2 < Int.fract q
    · rw [if_pos h2]
      push_cast
      rw [hfloor, abs_le]
      constructor <;> [linarith; linarith]
    · rw [if_neg h2]
      push_neg at h2
      by_cases h3 : Even ⌊q⌋
      · rw [if_pos h3, hfloor, abs_le]
        constructor <;> [linarith; linarith]
      · rw [if_neg h3]
        push_cast
        rw [hfloor, abs_le]
        constructor <;> [linarith; linarith]

theorem roundHalfEven_mem_Icc {q : ℚ} (h0 : 0 ≤ q) (h1 : q ≤ 1000) :
    0 ≤ roundHalfEven q ∧ roundHalfEven q ≤ 1000 := by
  have hf0 : 0 ≤ ⌊q⌋ := Int.floor_nonneg.mpr h0
  have hf1 : ⌊q⌋ ≤ 1000 := by
    have : (⌊q⌋ : ℚ) ≤ 1000 := le_trans (Int.floor_le q) h1
    exact_mod_cast this
  rcases roundHalfEven_cases q with h | h
  · rw [h]; exact ⟨hf0, hf1⟩
  · rw [h]
    refine ⟨by omega, ?_⟩
    by_cases heq : ⌊q⌋ = 1000
    · exfalso
      have hq : q = 1000 := by
        have hle := Int.floor_le q
        rw [heq] at hle
        have : (1000 : ℚ) ≤ q := by exact_mod_cast hle
        linarith
      have hfr : Int.fract q = 0 := by
        rw [hq]
        exact_mod_cast Int.fract_intCast 1000
      unfold roundHalfEven at h
      rw [hfr] at h
      rw [if_pos (by norm_num)] at h
      omega
    · omega

/-- Claim C9, amended: for a defined raw distance `d`, the stored relevance
score is `round(1 - d, 3)` exactly; it differs from `1 - d` by at most
`1/2000` and lies in `[0, 1]` whenever the distance lies in `[0, 1]` (the
counterexample shows the `[0, 1]` bound fails for distances above 1, which
the code does not clamp); an undefined distance is propagated as null. -/
theorem c9_relevance_score (d : ℚ) (h0 : 0 ≤ d) (h1 : d ≤ 1) :
    relevanceScoreOf (some d) = some (round3 (1 - d))
    ∧ 0 ≤ round3 (1 - d) ∧ round3 (1 - d) ≤ 1
    ∧ |round3 (1 - d) - (1 - d)| ≤ 1 / 2000
    ∧ relevanceScoreOf none = none := by
  have hq0 : 0 ≤ (1 - d) * 1000 := by nlinarith
  have hq1 : (1 - d) * 1000 ≤ 1000 := by nlinarith
  obtain ⟨hb0, hb1⟩ := roundHalfEven_mem_Icc hq0 hq1
  refine ⟨rfl, ?_, ?_, ?_, rfl⟩
  · unfold round3
    have : (0 : ℚ) ≤ (roundHalfEven ((1 - d) * 1000) : ℚ) := by exact_mod_cast hb0
    positivity
  · unfold round3
    rw [div_le_one (by norm_num)]
    exact_mod_cast hb1
  · unfold round3
    have herr := roundHalfEven_err ((1 - d) * 1000)
    have hsplit : (roundHalfEven ((1 - d) * 1000) : ℚ) / 1000 - (1 - d) =
        ((roundHalfEven ((1 - d) * 1000) : ℚ) - (1 - d) * 1000) / 1000 := by ring
    rw [hsplit, abs_div, show |(1000 : ℚ)| = 1000 from by norm_num]
    rw [div_le_iff₀ (by norm_num : (0 : ℚ) < 1000)]
    calc |(roundHalfEven ((1 - d) * 1000) : ℚ) - (1 - d) * 1000| ≤ 1 / 2 := herr
    _ = 1 / 2000 * 1000 := by norm_num

theorem c9_relevance_score_witness :
    ((0 : ℚ) ≤ 1 / 4 ∧ (1 / 4 : ℚ) ≤ 1)
    ∧ (0 ≤ round3 (1 - 1 / 4) ∧ round3 (1 - 1 / 4) ≤ 1) :=
  ⟨⟨by norm_num, by norm_num⟩,
   ⟨(c9_relevance_score (1 / 4) (by norm_num) (by norm_num)).2.1,
    (c9_relevance_score (1 / 4) (by norm_num) (by norm_num)).2.2.1⟩⟩

/-- Counterexample to claim C9 as stated: a raw distance of 2 (legal for
cosine or L2 distances, and not clamped by the code) yields a relevance
score of `-1`, outside `[0, 1]`. -/
theorem c9_counterexample :
    relevanceScoreOf (some 2) = some (-1) ∧ ¬((0 : ℚ) ≤ -1) := by
  constructor
  · show some (round3 (1 - 2)) = some (-1)
    have h2 : ((1 - 2 : ℚ)) * 1000 = ((-1000 : ℤ) : ℚ) := by norm_num
    unfold round3 roundHalfEven
    rw [h2, Int.fract_intCast, Int.floor_intCast]
    norm_num
  · norm_num

/-! ### Paragraph detection, split/clean/filter stage (claim C7)

`detect_paragraphs` (src/processing.py lines 62-117) first rewrites
paragraph separators into the marker `§PARA§` using newline-based regex
heuristics, then (lines 107-117) splits the marked text on `§PARA§`,
cleans each piece (newline runs to spaces, whitespace runs to single
spaces, strip) and keeps only the pieces with `para and len(para) > 20`.
The substitution phase is newline-driven and opaque to the length
threshold; the claim is about the threshold stage, modelled here as a
function of the marked text. -/

/-- The paragraph marker `§PARA§` inserted by the substitution phase. -/
def paraMarker : List Char := ['§', 'P', 'A', 'R', 'A', '§']

/-- Fueled splitter on the literal separator `§PARA§`. -/
def splitOnMarkerFuel : Nat → List Char → List (List Char)
  | _, [] => [[]]
  | 0, l => [l]
  | fuel + 1, c :: rest =>
    if paraMarker.isPrefixOf (c :: rest) then
      [] :: splitOnMarkerFuel fuel ((c :: rest).drop 6)
    else
      match splitOnMarkerFuel fuel rest with
      | p :: ps => (c :: p) :: ps
      | [] => [[c]]

/-- Split the marked text at every occurrence of `§PARA§`, as Python
`text.split('§PARA§')` does (src/processing.py line 108). -/
def splitOnMarker (l : List Char) : List (List Char) := splitOnMarkerFuel l.length l

/-- Fueled newline-run collapsing. -/
def collapseNLFuel : Nat → List Char → List Char
  | _, [] => []
  | 0, l => l
  | fuel + 1, c :: rest =>
    if c = '\n' then ' ' :: collapseNLFuel fuel (rest.dropWhile (· = '\n'))
    else c :: collapseNLFuel fuel rest

/-- Replace every newline run by a single space; models
`re.sub(r'\n+', ' ', para)` (src/processing.py line 110). -/
def collapseNL (l : List Char) : List Char := collapseNLFuel l.length l

/-- The per-paragraph cleanup of lines 110-112: collapse newline runs,
normalize whitespace runs, strip. -/
def cleanPara (p : List Char) : List Char := stripWS (collapseWS (collapseNL p))

/-- The split/clean/filter loop of `detect_paragraphs`
(src/processing.py lines 107-117), applied to the marker-substituted text:
split on `§PARA§`, clean each piece, keep it when it is nonempty and its
length exceeds 20 (`if para and len(para) > 20`). -/
def paragraphsOfMarked (marked : List Char) : List (List Char) :=
  ((splitOnMarker marked).map cleanPara).filter
    (fun p => !p.isEmpty && decide (20 < p.length))

/-- Claim C7, amended: the retention test of paragraph detection keeps
exactly the cleaned paragraphs whose length is strictly greater than 20
characters; in particular a paragraph whose normalized text is exactly 20
characters long is discarded (see the counterexample), not retained as the
claim states. -/
theorem c7_paragraph_length_filter (marked : List Char) (p : List Char) :
    p ∈ paragraphsOfMarked marked ↔
      ((∃ q ∈ splitOnMarker marked, p = cleanPara q) ∧ p ≠ [] ∧ 20 < p.length) := by
  unfold paragraphsOfMarked
  rw [List.mem_filter, List.mem_map]
  constructor
  · rintro ⟨⟨q, hq, rfl⟩, hcond⟩
    rw [Bool.and_eq_true, Bool.not_eq_true', List.isEmpty_eq_false_iff_exists_mem,
      decide_eq_true_eq] at hcond
    obtain ⟨⟨x, hx⟩, hlen⟩ := hcond
    refine ⟨⟨q, hq, rfl⟩, ?_, hlen⟩
    intro hnil
    rw [hnil] at hx
    simp at hx
  · rintro ⟨⟨q, hq, rfl⟩, hne, hlen⟩
    refine ⟨⟨q, hq, rfl⟩, ?_⟩
    rw [Bool.and_eq_true, Bool.not_eq_true', decide_eq_true_eq]
    refine ⟨?_, hlen⟩
    rw [List.isEmpty_eq_false_iff_exists_mem]
    cases hq' : cleanPara q with
    | nil => exact absurd hq' hne
    | cons a r => exact ⟨a, by simp [hq']⟩

theorem c7_paragraph_length_filter_witness :
    ("abcdefghijklmnopqrstu").data ∈
      paragraphsOfMarked ("abcdefghijklmnopqrstu").data :=
  (c7_paragraph_length_filter ("abcdefghijklmnopqrstu").data
    ("abcdefghijklmnopqrstu").data).mpr
    ⟨⟨("abcdefghijklmnopqrstu").data, by decide, by decide⟩, by decide, by decide⟩

/-- Counterexample to claim C7 as stated: a pure-text paragraph whose
normalized form has exactly 20 characters (here the substitution phase is
the identity: no newline, no marker) is discarded by the `> 20` test, not
retained. -/
theorem c7_counterexample :
    (cleanPara ("abcdefghijklmnopqrst").data = ("abcdefghijklmnopqrst").data
     ∧ (("abcdefghijklmnopqrst").data).length = 20)
    ∧ paragraphsOfMarked ("abcdefghijklmnopqrst").data = [] := by
  refine ⟨⟨?_, ?_⟩, ?_⟩ <;> decide

/-! ### Sentence splitting and paragraph chunking (claim C6) -/

/-- An ASCII capital letter, the class `[A-Z]`. -/
def isUpper (c : Char) : Bool := 'A' ≤ c ∧ c ≤ 'Z'

/-- A sentence terminator, the class `[.!?]`. -/
def isTerm (c : Char) : Bool := c = '.' ∨ c = '!' ∨ c = '?'

/-- A word character, the class `\w` over ASCII. -/
def isWordChar (c : Char) : Bool := c.isAlphanum ∨ c = '_'

/-- The lookbehind of the sentence split: the preceding character (head of
the reversed accumulator) is a sentence terminator. -/
def headIsTerm : List Char → Bool
  | p :: _ => isTerm p
  | [] => false

/-- Lookbehind for the fallback split: the preceding character is a word
character. -/
def headIsWordChar : List Char → Bool
  | p :: _ => isWordChar p
  | [] => false

/-- The next character exists and is whitespace. -/
def headIsWS : List Char → Bool
  | r :: _ => isWS r
  | [] => false

/-- Fueled scanner for `re.split(r'(?<=[.!?])\s+(?=[A-Z])', text)`
(src/processing.py line 193): a maximal whitespace run preceded by a
sentence terminator and followed by a capital letter is a separator.  The
accumulator holds the current piece reversed; the lookbehind inspects its
head. -/
def sentSplitFuel : Nat → List Char → List Char → List (List Char)
  | _, acc, [] => [acc.reverse]
  | 0, acc, l => [acc.reverse ++ l]
  | fuel + 1, acc, c :: rest =>
    if isWS c && headIsTerm acc then
      match (c :: rest).dropWhile isWS with
      | a :: after2 =>
        if isUpper a then
          acc.reverse :: sentSplitFuel fuel [] (a :: after2)
        else
          sentSplitFuel fuel (((c :: rest).takeWhile isWS).reverse ++ acc) (a :: after2)
      | [] => [acc.reverse ++ (c :: rest)]
    else
      sentSplitFuel fuel (c :: acc) rest

/-- `re.split(r'(?<=[.!?])\s+(?=[A-Z])', text)`. -/
def sentRegexSplit (text : List Char) : List (List Char) :=
  sentSplitFuel text.length [] text

/-- Fueled scanner for the fallback split
`re.split(r'[,;]\s+|(?<=\w)\s+(?=\w)', text)` (src/processing.py line 198):
either a comma or semicolon followed by a whitespace run, or a whitespace
run between word characters, is a separator (the first alternative is
tried first at each position). -/
def fbSplitFuel : Nat → List Char → List Char → List (List Char)
  | _, acc, [] => [acc.reverse]
  | 0, acc, l => [acc.reverse ++ l]
  | fuel + 1, acc, c :: rest =>
    if (c = ',' || c = ';') && headIsWS rest then
      acc.reverse :: fbSplitFuel fuel [] (rest.dropWhile isWS)
    else if isWS c && headIsWordChar acc then
      match (c :: rest).dropWhile isWS with
      | a :: after2 =>
        if isWordChar a then
          acc.reverse :: fbSplitFuel fuel [] (a :: after2)
        else
          fbSplitFuel fuel (((c :: rest).takeWhile isWS).reverse ++ acc) (a :: after2)
      | [] => [acc.reverse ++ (c :: rest)]
    else
      fbSplitFuel fuel (c :: acc) rest

/-- The fallback word/punctuation split of `split_into_sentences`. -/
def fbSplit (text : List Char) : List (List Char) :=
  fbSplitFuel text.length [] text

/-- The grouping loop of the fallback (src/processing.py lines 200-211):
pack parts into pieces while `len(current + " " + part) <= 200`, flushing
the nonempty current piece otherwise. -/
def groupParts : List (List Char) → List Char → List (List Char)
  | [], current => if current.isEmpty then [] else [current]
  | p :: ps, current =>
    if current.length + 1 + p.length ≤ 200 then
      groupParts ps (if current.isEmpty then p else current ++ ' ' :: p)
    else
      if current.isEmpty then groupParts ps p
      else current :: groupParts ps p

/-- `split_into_sentences` (src/processing.py lines 185-213): split on
sentence boundaries; if that yields a single piece and the text exceeds
400 characters, fall back to splitting on commas/semicolons/word
boundaries grouped into pieces of at most 200 characters; finally strip
each sentence and drop the empty ones. -/
def splitIntoSentences (text : List Char) : List (List Char) :=
  ((if (sentRegexSplit text).length = 1 ∧ 400 < text.length then
      groupParts (fbSplit text) []
    else sentRegexSplit text).map stripWS).filter (fun s => !s.isEmpty)

/-- A chunk produced by `split_paragraph_into_chunks`: its text and the
`paragraph_num` / `chunk_in_paragraph` metadata entries (the rest of
`base_metadata` is carried through unchanged by the source and is not
modelled). -/
structure PChunk where
  content : List Char
  paragraphNum : Nat
  chunkInParagraph : Nat
deriving DecidableEq

/-- The greedy sentence-packing loop of `split_paragraph_into_chunks`
(src/processing.py lines 143-181): accumulate sentences while the
candidate chunk stays within `chunk_size`, else flush the current chunk
and start a new one from the current sentence. -/
def chunkLoop (chunkSize paraIdx : Nat) : List (List Char) → List Char → Nat → List PChunk
  | [], current, cip =>
    if current.isEmpty then [] else [⟨stripWS current, paraIdx, cip⟩]
  | s :: ss, current, cip =>
    if (if current.isEmpty then s else current ++ ' ' :: s).length ≤ chunkSize then
      chunkLoop chunkSize paraIdx ss (if current.isEmpty then s else current ++ ' ' :: s) cip
    else
      if current.isEmpty then chunkLoop chunkSize paraIdx ss s cip
      else ⟨stripWS current, paraIdx, cip⟩ :: chunkLoop chunkSize paraIdx ss s (cip + 1)

/-- `split_paragraph_into_chunks` (src/processing.py lines 120-182): a
paragraph within the chunk size is emitted unsplit as one chunk; otherwise
its sentences are packed greedily. -/
def splitParagraphIntoChunks (paragraph : List Char) (chunkSize paraIdx : Nat) :
    List PChunk :=
  if paragraph.length ≤ chunkSize then [⟨paragraph, paraIdx, 1⟩]
  else chunkLoop chunkSize paraIdx (splitIntoSentences paragraph) [] 1

theorem stripWS_length_le (l : List Char) : (stripWS l).length ≤ l.length := by
  unfold stripWS
  have h1 := (List.dropWhile_sublist (l := l) isWS).length_le
  have h2 := (List.dropWhile_sublist (l := (l.dropWhile isWS).reverse) isWS).length_le
  simp only [List.length_reverse] at h2 ⊢
  omega

theorem dropWhile_of_head_false {p : Char → Bool} {l : List Char}
    (h : ∀ c, l.head? = some c → p c = false) : l.dropWhile p = l := by
  cases l with
  | nil => rfl
  | cons a r =>
    rw [List.dropWhile_cons, if_neg]
    rw [h a rfl]
    simp

theorem stripWS_idem (l : List Char) : stripWS (stripWS l) = stripWS l := by
  have h1 : (stripWS l).dropWhile isWS = stripWS l :=
    dropWhile_of_head_false (fun c hc => stripWS_head_not_ws hc)
  have h2 : (stripWS l).reverse.dropWhile isWS = (stripWS l).reverse :=
    dropWhile_of_head_false (fun c hc => by
      rw [List.head?_reverse] at hc
      exact stripWS_getLast_not_ws hc)
  show (((stripWS l).dropWhile isWS).reverse.dropWhile isWS).reverse = stripWS l
  rw [h1, h2, List.reverse_reverse]

theorem splitIntoSentences_stripped (p : List Char) :
    ∀ s ∈ splitIntoSentences p, stripWS s = s := by
  intro s hs
  unfold splitIntoSentences at hs
  rw [List.mem_filter] at hs
  obtain ⟨hmem, -⟩ := hs
  obtain ⟨y, -, rfl⟩ := List.mem_map.mp hmem
  exact stripWS_idem y

theorem chunkLoop_content (chunkSize paraIdx : Nat) (S : List (List Char))
    (hstr : ∀ s ∈ S, stripWS s = s) :
    ∀ (ss : List (List Char)) (current : List Char) (cip : Nat),
      (∀ x ∈ ss, x ∈ S) →
      (current = [] ∨ current.length ≤ chunkSize ∨ current ∈ S) →
      ∀ ch ∈ chunkLoop chunkSize paraIdx ss current cip,
        ch.content.length ≤ chunkSize ∨ ch.content ∈ S := by
  intro ss
  induction ss with
  | nil =>
    intro current cip _ hinv ch hch
    simp only [chunkLoop] at hch
    by_cases hemp : current.isEmpty
    · rw [if_pos hemp] at hch
      simp at hch
    · rw [if_neg hemp] at hch
      rcases List.mem_singleton.mp hch with rfl
      rcases hinv with rfl | hle | hmem
      · simp at hemp
      · exact Or.inl (le_trans (stripWS_length_le current) hle)
      · exact Or.inr (by rw [hstr current hmem]; exact hmem)
  | cons s ss ih =>
    intro current cip hss hinv ch hch
    have hsS : s ∈ S := hss s (List.mem_cons_self _ _)
    have hss' : ∀ x ∈ ss, x ∈ S := fun x hx => hss x (List.mem_cons_of_mem _ hx)
    simp only [chunkLoop] at hch
    by_cases hfit : (if current.isEmpty then s else current ++ ' ' :: s).length ≤ chunkSize
    · rw [if_pos hfit] at hch
      exact ih _ cip hss' (Or.inr (Or.inl hfit)) ch hch
    · rw [if_neg hfit] at hch
      by_cases hemp : current.isEmpty
      · rw [if_pos hemp] at hch
        exact ih _ cip hss' (Or.inr (Or.inr hsS)) ch hch
      · rw [if_neg hemp] at hch
        rcases List.mem_cons.mp hch with rfl | hch'
        · rcases hinv with rfl | hle | hmem
          · simp at hemp
          · exact Or.inl (le_trans (stripWS_length_le current) hle)
          · exact Or.inr (by rw [hstr current hmem]; exact hmem)
        · exact ih _ (cip + 1) hss' (Or.inr (Or.inr hsS)) ch hch'

/-! ### Claim C6 -/

/-- Claim C6: every chunk produced by the segmenter from a paragraph (with
the maximum chunk size 800) has text of length at most 800, except a chunk
consisting of a single oversized sentence of the sentence splitter; and a
paragraph of exactly 800 characters yields exactly one unsplit chunk.
`split_documents` concatenates the per-paragraph chunk lists, so this
covers every chunk it produces. -/
theorem c6_chunk_size_bound (paragraph : List Char) (paraIdx : Nat) :
    (∀ ch ∈ splitParagraphIntoChunks paragraph 800 paraIdx,
        ch.content.length ≤ 800 ∨ ch.content ∈ splitIntoSentences paragraph)
    ∧ (paragraph.length = 800 →
        splitParagraphIntoChunks paragraph 800 paraIdx =
          [⟨paragraph, paraIdx, 1⟩]) := by
  constructor
  · intro ch hch
    unfold splitParagraphIntoChunks at hch
    by_cases hlen : paragraph.length ≤ 800
    · rw [if_pos hlen] at hch
      rcases List.mem_singleton.mp hch with rfl
      exact Or.inl hlen
    · rw [if_neg hlen] at hch
      exact chunkLoop_content 800 paraIdx (splitIntoSentences paragraph)
        (splitIntoSentences_stripped paragraph) (splitIntoSentences paragraph) [] 1
        (fun x hx => hx) (Or.inl rfl) ch hch
  · intro hlen
    unfold splitParagraphIntoChunks
    rw [if_pos (le_of_eq hlen)]

theorem c6_chunk_size_bound_witness :
    (List.replicate 800 'a').length = 800
    ∧ splitParagraphIntoChunks (List.replicate 800 'a') 800 1 =
        [⟨List.replicate 800 'a', 1, 1⟩] :=
  ⟨List.length_replicate 800 'a',
   (c6_chunk_size_bound (List.replicate 800 'a') 1).2 (List.length_replicate 800 'a')⟩

/-! ### Decimal representation facts -/

theorem digitsToNat_append_singleton (xs : List Char) (c : Char) :
    digitsToNat (xs ++ [c]) = 10 * digitsToNat xs + (c.toNat - 48) := by
  simp [digitsToNat, List.foldl_append]

theorem digitChar_toNat {d : Nat} (h : d < 10) : (Nat.digitChar d).toNat - 48 = d := by
  interval_cases d <;> decide

theorem digitsToNat_natToDigitsAux :
    ∀ (fuel n : Nat), n < 10 ^ fuel → digitsToNat (natToDigitsAux fuel n) = n := by
  intro fuel
  induction fuel with
  | zero =>
    intro n h
    have : n = 0 := by simpa using h
    subst this
    rfl
  | succ f ih =>
    intro n h
    simp only [natToDigitsAux]
    by_cases hn : n < 10
    · rw [if_pos hn]
      show digitsToNat ([] ++ [Nat.digitChar n]) = n
      rw [digitsToNat_append_singleton, digitChar_toNat hn]
      simp [digitsToNat]
    · rw [if_neg hn]
      have hdiv : n / 10 < 10 ^ f := by
        rw [Nat.div_lt_iff_lt_mul (by norm_num)]
        rw [pow_succ] at h
        exact h
      rw [digitsToNat_append_singleton, ih (n / 10) hdiv,
          digitChar_toNat (Nat.mod_lt _ (by norm_num))]
      omega

theorem digitsToNat_natToDigits (n : Nat) : digitsToNat (natToDigits n) = n := by
  have h1 : n < 10 ^ n := Nat.lt_pow_self (by norm_num) n
  have h2 : (10 : Nat) ^ n ≤ 10 ^ (n + 1) :=
    Nat.pow_le_pow_right (by norm_num) (Nat.le_succ n)
  exact digitsToNat_natToDigitsAux (n + 1) n (lt_of_lt_of_le h1 h2)

theorem natToDigits_inj {a b : Nat} (h : natToDigits a = natToDigits b) : a = b := by
  have ha := digitsToNat_natToDigits a
  have hb := digitsToNat_natToDigits b
  rw [h] at ha
  exact ha.symm.trans hb

theorem natToDigits_ne_nil (n : Nat) : natToDigits n ≠ [] := by
  unfold natToDigits natToDigitsAux
  by_cases hn : n < 10
  · simp [hn]
  · simp [hn]

theorem mem_natToDigits_isDigit {n : Nat} {c : Char} (h : c ∈ natToDigits n) :
    c.isDigit = true := natToDigitsAux_digits (n + 1) n c h

theorem bracket_not_mem_natToDigits (n : Nat) : '[' ∉ natToDigits n := by
  intro h
  have := mem_natToDigits_isDigit h
  simp [Char.isDigit] at this

theorem underscore_not_mem_natToDigits (n : Nat) : '_' ∉ natToDigits n := by
  intro h
  have := mem_natToDigits_isDigit h
  simp [Char.isDigit] at this

theorem bracket_not_mem_srcMarker_tail (n : Nat) :
    '[' ∉ sourceTag ++ natToDigits n ++ [']'] := by
  intro h
  rcases List.mem_append.mp h with h | h
  · rcases List.mem_append.mp h with h | h
    · simp [sourceTag] at h
    · exact bracket_not_mem_natToDigits n h
  · simp at h

theorem underscore_not_mem_srcMarker (n : Nat) : '_' ∉ srcMarker n := by
  intro h
  unfold srcMarker at h
  rcases List.mem_cons.mp h with h | h
  · simp at h
  · rcases List.mem_append.mp h with h | h
    · rcases List.mem_append.mp h with h | h
      · simp [sourceTag] at h
      · exact underscore_not_mem_natToDigits n h
    · simp at h

theorem bracket_not_mem_tempMarker (j : Nat) : '[' ∉ tempMarker j := by
  intro h
  unfold tempMarker at h
  rcases List.mem_append.mp h with h | h
  · rcases List.mem_append.mp h with h | h
    · simp [tempTag] at h
    · exact bracket_not_mem_natToDigits j h
  · simp at h

/-! ### Segment model of a response text

To settle claims C3 and C4, response texts are represented as sequences of
segments: plain text holding neither `[` nor `_`, well-formed markers
`[Source n]`, bare markers `[n]` (both with the number written canonically,
without leading zeros), and — mid-pipeline only — placeholders
`__TEMP_SOURCE_j__`.  The replacement passes of `process_response` are then
characterized segment-wise. -/

inductive Seg
  | txt (s : List Char)
  | src (n : Nat)
  | bare (n : Nat)
  | ph (j : Nat)
deriving DecidableEq

/-- The character string denoted by a segment. -/
def Seg.flat : Seg → List Char
  | Seg.txt s => s
  | Seg.src n => srcMarker n
  | Seg.bare n => '[' :: (natToDigits n ++ [']'])
  | Seg.ph j => tempMarker j

/-- The response text denoted by a list of segments. -/
def flatten (segs : List Seg) : List Char := (segs.map Seg.flat).join

theorem flatten_nil : flatten [] = [] := rfl

theorem flatten_cons (s : Seg) (rest : List Seg) :
    flatten (s :: rest) = s.flat ++ flatten rest := by
  simp [flatten]

/-- Mid-pipeline wellformedness: plain text holds neither `[` nor `_`. -/
def SegOK : Seg → Prop
  | Seg.txt s => '[' ∉ s ∧ '_' ∉ s
  | _ => True

/-- Input wellformedness: additionally, the response contains no
placeholder segment. -/
def InputOK : Seg → Prop
  | Seg.txt s => '[' ∉ s ∧ '_' ∉ s
  | Seg.ph _ => False
  | _ => True

/-! ### Prefix non-matching for numeric patterns -/

theorem not_pfx_digits {X ds : List Char} {c c' : Char} {u v : List Char}
    (hX : ∀ a ∈ X, a.isDigit = true) (hds : ∀ a ∈ ds, a.isDigit = true)
    (hne : X ≠ ds) (hc : c.isDigit = false) (hc' : c'.isDigit = false) :
    ¬ (X ++ c :: u) <+: (ds ++ c' :: v) := by
  induction X generalizing ds with
  | nil =>
    cases ds with
    | nil => exact absurd rfl hne
    | cons d ds' =>
      intro hp
      rw [List.nil_append, List.cons_append, List.cons_prefix_cons] at hp
      obtain ⟨rfl, -⟩ := hp
      rw [hds c (List.mem_cons_self _ _)] at hc
      exact absurd hc (by simp)
  | cons x X' ih =>
    cases ds with
    | nil =>
      intro hp
      rw [List.cons_append, List.nil_append, List.cons_prefix_cons] at hp
      obtain ⟨rfl, -⟩ := hp
      rw [hX x (List.mem_cons_self _ _)] at hc'
      exact absurd hc' (by simp)
    | cons d ds' =>
      intro hp
      rw [List.cons_append, List.cons_append, List.cons_prefix_cons] at hp
      obtain ⟨rfl, hp'⟩ := hp
      have hX' : ∀ a ∈ X', a.isDigit = true := fun a ha => hX a (List.mem_cons_of_mem _ ha)
      have hds' : ∀ a ∈ ds', a.isDigit = true := fun a ha => hds a (List.mem_cons_of_mem _ ha)
      have hne' : X' ≠ ds' := by
        intro h
        exact hne (by rw [h])
      exact ih hX' hds' hne' hp'

theorem not_pfx_of_getElem {p t : List Char} {i : Nat} {a b : Char}
    (hp : p[i]? = some a) (ht : t[i]? = some b) (hne : a ≠ b) : ¬ p <+: t := by
  rintro ⟨r, rfl⟩
  have hi : i < p.length := by
    by_contra h
    push_neg at h
    rw [List.getElem?_eq_none h] at hp
    exact absurd hp (by simp)
  rw [List.getElem?_append, if_pos hi] at ht
  rw [hp] at ht
  exact hne (by simpa using ht)

/-! ### Stepping lemmas for `replaceAll` -/

theorem replaceAll_cons_skip {pat rep : List Char} {c : Char} {rest : List Char}
    (h : ¬ pat <+: (c :: rest)) :
    replaceAll pat rep (c :: rest) = c :: replaceAll pat rep rest := by
  rw [replaceAll_cons, if_neg]
  rintro ⟨-, hp⟩
  exact h ( List.isPrefixOf_iff_prefix.mp hp)

theorem replaceAll_here {pat rep : List Char} (t : List Char) (hne : pat ≠ []) :
    replaceAll pat rep (pat ++ t) = rep ++ replaceAll pat rep t := by
  cases hp : pat with
  | nil => exact absurd hp hne
  | cons p ps =>
    rw [← hp]
    have hx : pat ++ t = p :: (ps ++ t) := by rw [hp]; rfl
    rw [hx, replaceAll_cons, if_pos]
    · rw [← hx]
      have : (pat ++ t).drop pat.length = t := List.drop_left pat t
      rw [this]
    · refine ⟨hne, ?_⟩
      rw [← hx]
      exact List.isPrefixOf_iff_prefix.mpr ⟨t, rfl⟩

theorem replaceAll_skip_block {pat rep : List Char} {a : Char} (w t : List Char)
    (hhead : pat.head? = some a) (hnotin : a ∉ w) :
    replaceAll pat rep (w ++ t) = w ++ replaceAll pat rep t := by
  induction w with
  | nil => rfl
  | cons c w' ih =>
    have hca : c ≠ a := by
      intro h
      exact hnotin (h ▸ List.mem_cons_self _ _)
    have hnp : ¬ pat <+: (c :: (w' ++ t)) := by
      intro hp
      cases pat with
      | nil => simp at hhead
      | cons q qs =>
        rw [List.cons_prefix_cons] at hp
        simp only [List.head?_cons, Option.some.injEq] at hhead
        exact hca (by rw [← hp.1, hhead])
    rw [List.cons_append, replaceAll_cons_skip hnp,
        ih (fun h => hnotin (List.mem_cons_of_mem _ h)), List.cons_append]

/-! ### takeWhile/dropWhile over digit runs -/

theorem takeWhile_all_append {p : Char → Bool} {ds : List Char} {b : Char} (v : List Char)
    (hds : ∀ a ∈ ds, p a = true) (hb : p b = false) :
    (ds ++ b :: v).takeWhile p = ds := by
  induction ds with
  | nil =>
    rw [List.nil_append, List.takeWhile_cons, hb]
    simp
  | cons d ds' ih =>
    rw [List.cons_append, List.takeWhile_cons, hds d (List.mem_cons_self _ _)]
    rw [ih (fun a ha => hds a (List.mem_cons_of_mem _ ha))]
    simp

theorem dropWhile_all_append {p : Char → Bool} {ds : List Char} {b : Char} (v : List Char)
    (hds : ∀ a ∈ ds, p a = true) (hb : p b = false) :
    (ds ++ b :: v).dropWhile p = b :: v := by
  induction ds with
  | nil =>
    rw [List.nil_append, List.dropWhile_cons, hb]
    simp
  | cons d ds' ih =>
    rw [List.cons_append, List.dropWhile_cons, hds d (List.mem_cons_self _ _)]
    simp only [if_pos]
    exact ih (fun a ha => hds a (List.mem_cons_of_mem _ ha))

/-! ### `scanSources` on segment lists -/

theorem scanSources_skip_block {w : List Char} (t : List Char) (h : '[' ∉ w) :
    scanSources (w ++ t) = scanSources t := by
  induction w with
  | nil => rfl
  | cons c w' ih =>
    have hc : c ≠ '[' := by
      intro hc
      exact h (hc ▸ List.mem_cons_self _ _)
    rw [List.cons_append, scanSources_cons, if_neg hc]
    exact ih (fun hm => h (List.mem_cons_of_mem _ hm))

theorem matchSource_at_marker (n : Nat) (t : List Char) :
    matchSourceAfterBracket ((sourceTag ++ natToDigits n ++ [']']) ++ t) =
      some (n, t) := by
  have hassoc : (sourceTag ++ natToDigits n ++ [']']) ++ t =
      sourceTag ++ (natToDigits n ++ ']' :: t) := by
    simp [List.append_assoc]
  rw [hassoc]
  unfold matchSourceAfterBracket
  have h7 : (7 : Nat) = sourceTag.length := rfl
  rw [h7, List.take_left, List.drop_left]
  rw [if_pos rfl]
  have hdw : (natToDigits n ++ ']' :: t).dropWhile Char.isDigit = ']' :: t :=
    dropWhile_all_append t (fun a ha => mem_natToDigits_isDigit ha) (by decide)
  have htw : (natToDigits n ++ ']' :: t).takeWhile Char.isDigit = natToDigits n :=
    takeWhile_all_append t (fun a ha => mem_natToDigits_isDigit ha) (by decide)
  rw [hdw]
  show (if (natToDigits n ++ ']' :: t).takeWhile Char.isDigit = [] then none
    else some (digitsToNat ((natToDigits n ++ ']' :: t).takeWhile Char.isDigit), t)) =
    some (n, t)
  rw [htw, if_neg (natToDigits_ne_nil n), digitsToNat_natToDigits]

theorem scanSources_src (n : Nat) (t : List Char) :
    scanSources (srcMarker n ++ t) = n :: scanSources t := by
  have hx : srcMarker n ++ t = '[' :: ((sourceTag ++ natToDigits n ++ [']']) ++ t) := by
    simp [srcMarker, List.append_assoc]
  rw [hx, scanSources_cons, if_pos rfl, matchSource_at_marker]

theorem take_head_eq {c : Char} {l : List Char} {d : Char} {m : List Char}
    (h : (c :: l).take 7 = d :: m) : c = d := by
  have : (c :: l).take 7 = c :: l.take 6 := rfl
  rw [this] at h
  exact (List.cons.injEq _ _ _ _).mp h |>.1

theorem matchSource_not_at_digit {l : List Char} {d : Char}
    (hl : l.head? = some d) (hd : d.isDigit = true) :
    matchSourceAfterBracket l = none := by
  cases l with
  | nil => simp at hl
  | cons c rest =>
    simp only [List.head?_cons, Option.some.injEq] at hl
    rw [← hl] at hd
    unfold matchSourceAfterBracket
    rw [if_neg]
    intro htag
    have hcs : c = 'S' := take_head_eq htag
    rw [hcs] at hd
    exact absurd hd (by decide)

theorem scanSources_bare (n : Nat) (t : List Char) :
    scanSources (('[' :: (natToDigits n ++ [']'])) ++ t) = scanSources t := by
  have hx : ('[' :: (natToDigits n ++ [']'])) ++ t =
      '[' :: ((natToDigits n ++ [']']) ++ t) := rfl
  rw [hx, scanSources_cons, if_pos rfl]
  obtain ⟨d, ds, hnd⟩ := List.exists_cons_of_ne_nil (natToDigits_ne_nil n)
  have hdig : d.isDigit = true := by
    apply mem_natToDigits_isDigit (n := n)
    rw [hnd]
    exact List.mem_cons_self _ _
  have hhd : ((natToDigits n ++ [']']) ++ t).head? = some d := by
    rw [hnd]
    rfl
  rw [matchSource_not_at_digit hhd hdig]
  have hw : '[' ∉ natToDigits n ++ [']'] := by
    intro hm
    rcases List.mem_append.mp hm with hm | hm
    · exact bracket_not_mem_natToDigits n hm
    · simp at hm
  exact scanSources_skip_block t hw

/-- Plain-text segments contain no opening bracket. -/
def SegBrk : Seg → Prop
  | Seg.txt s => '[' ∉ s
  | _ => True

/-- The citation number of a marker segment. -/
def segSrcNum : Seg → Option Nat
  | Seg.src n => some n
  | _ => none

theorem scanSources_flatten (segs : List Seg) (h : ∀ s ∈ segs, SegBrk s) :
    scanSources (flatten segs) = segs.filterMap segSrcNum := by
  induction segs with
  | nil => rfl
  | cons s rest ih =>
    have hrest : ∀ x ∈ rest, SegBrk x := fun x hx => h x (List.mem_cons_of_mem _ hx)
    have ihr := ih hrest
    rw [flatten_cons, List.filterMap_cons]
    cases s with
    | txt w =>
      have hw : '[' ∉ w := h (Seg.txt w) (List.mem_cons_self _ _)
      rw [show (Seg.txt w).flat = w from rfl, scanSources_skip_block _ hw, ihr]
      rfl
    | src n =>
      rw [show (Seg.src n).flat = srcMarker n from rfl, scanSources_src, ihr]
      rfl
    | bare n =>
      rw [show (Seg.bare n).flat = '[' :: (natToDigits n ++ [']']) from rfl,
          scanSources_bare, ihr]
      rfl
    | ph j =>
      rw [show (Seg.ph j).flat = tempMarker j from rfl,
          scanSources_skip_block _ (bracket_not_mem_tempMarker j), ihr]
      rfl

/-! ### `removeBare` on segment lists -/

theorem removeBare_skip_block {w : List Char} (t : List Char) (h : '[' ∉ w) :
    removeBare (w ++ t) = w ++ removeBare t := by
  induction w with
  | nil => rfl
  | cons c w' ih =>
    have hc : c ≠ '[' := by
      intro hc
      exact h (hc ▸ List.mem_cons_self _ _)
    rw [List.cons_append, removeBare_cons, if_neg hc,
        ih (fun hm => h (List.mem_cons_of_mem _ hm)), List.cons_append]

theorem matchBare_at_digits (n : Nat) (t : List Char) :
    matchBareAfterBracket (natToDigits n ++ ']' :: t) = some t := by
  unfold matchBareAfterBracket
  have hdw : (natToDigits n ++ ']' :: t).dropWhile Char.isDigit = ']' :: t :=
    dropWhile_all_append t (fun a ha => mem_natToDigits_isDigit ha) (by decide)
  have htw : (natToDigits n ++ ']' :: t).takeWhile Char.isDigit = natToDigits n :=
    takeWhile_all_append t (fun a ha => mem_natToDigits_isDigit ha) (by decide)
  rw [hdw]
  show (if (natToDigits n ++ ']' :: t).takeWhile Char.isDigit = [] then none
    else some t) = some t
  rw [htw, if_neg (natToDigits_ne_nil n)]

theorem matchBare_none_at_nondigit {l : List Char} {c : Char}
    (hl : l.head? = some c) (hc : c.isDigit = false) (hne : c ≠ ']') :
    matchBareAfterBracket l = none := by
  cases l with
  | nil => simp at hl
  | cons a rest =>
    simp only [List.head?_cons, Option.some.injEq] at hl
    subst hl
    unfold matchBareAfterBracket
    rw [List.dropWhile_cons, hc]
    simp only [Bool.false_eq_true, if_false]
    split
    · rename_i heq
      rw [List.cons.injEq] at heq
      exact absurd heq.1 hne
    · rfl

theorem removeBare_src (n : Nat) (t : List Char) :
    removeBare (srcMarker n ++ t) = srcMarker n ++ removeBare t := by
  have hx : srcMarker n ++ t = '[' :: ((sourceTag ++ natToDigits n ++ [']']) ++ t) := by
    simp [srcMarker, List.append_assoc]
  rw [hx, removeBare_cons, if_pos rfl]
  have hhd : ((sourceTag ++ natToDigits n ++ [']']) ++ t).head? = some 'S' := rfl
  rw [matchBare_none_at_nondigit hhd (by decide) (by decide)]
  rw [removeBare_skip_block t (bracket_not_mem_srcMarker_tail n)]
  simp [srcMarker, List.append_assoc]

theorem removeBare_bare (n : Nat) (t : List Char) :
    removeBare (('[' :: (natToDigits n ++ [']'])) ++ t) = removeBare t := by
  have hx : ('[' :: (natToDigits n ++ [']'])) ++ t =
      '[' :: (natToDigits n ++ ']' :: t) := by
    simp
  rw [hx, removeBare_cons, if_pos rfl, matchBare_at_digits]

/-! ### Placeholder restoration on segment lists

The placeholder pattern `__TEMP_SOURCE_j__` begins with `_`, and at the
restoration step (step 3 of `process_response`) the text is a sequence of
segments whose only underscores lie inside placeholders.  The two lemmas
`no_us_S_pfx` and `no_usT_pfx` rule out any occurrence of the pattern
spanning a placeholder boundary. -/

/-- Stage-3 wellformedness: plain text contains no underscore. -/
def Seg3OK : Seg → Prop
  | Seg.txt s => '_' ∉ s
  | _ => True

theorem underscore_not_mem_bare_flat (n : Nat) :
    '_' ∉ ('[' :: (natToDigits n ++ [']'])) := by
  intro h
  rcases List.mem_cons.mp h with h | h
  · simp at h
  · rcases List.mem_append.mp h with h | h
    · exact underscore_not_mem_natToDigits n h
    · simp at h

theorem tempMarker_cons3 (j : Nat) :
    tempMarker j = '_' :: ('_' :: ('T' ::
      (['E', 'M', 'P', '_', 'S', 'O', 'U', 'R', 'C', 'E', '_'] ++
        natToDigits j ++ ['_', '_']))) := by
  simp [tempMarker, tempTag]

theorem no_block_pfx_helper {F : List Char}
    (HF : ∀ (s z : List Char), '_' ∉ s → ¬ (s ++ '_' :: 'S' :: z) <+: F) :
    ∀ (w : List Char), '_' ∉ w → ∀ (s z : List Char), '_' ∉ s →
      ¬ (s ++ '_' :: 'S' :: z) <+: (w ++ F) := by
  intro w
  induction w with
  | nil => intro _ s z hs hp; exact HF s z hs (by simpa using hp)
  | cons c w' ih =>
    intro hw s z hs hp
    cases s with
    | nil =>
      rw [List.nil_append, List.cons_append, List.cons_prefix_cons] at hp
      exact hw (hp.1 ▸ List.mem_cons_self _ _)
    | cons a s' =>
      rw [List.cons_append, List.cons_append, List.cons_prefix_cons] at hp
      obtain ⟨rfl, hp'⟩ := hp
      exact ih (fun hm => hw (List.mem_cons_of_mem _ hm)) s' z
        (fun hm => hs (List.mem_cons_of_mem _ hm)) hp'

theorem no_us_S_pfx (segs : List Seg) (h : ∀ s ∈ segs, Seg3OK s) :
    ∀ (s z : List Char), '_' ∉ s → ¬ (s ++ '_' :: 'S' :: z) <+: flatten segs := by
  induction segs with
  | nil =>
    intro s z _ hp
    rw [flatten_nil, List.prefix_nil] at hp
    exact absurd hp (by simp)
  | cons seg rest ih =>
    have hrest : ∀ x ∈ rest, Seg3OK x := fun x hx => h x (List.mem_cons_of_mem _ hx)
    have HF := ih hrest
    intro s z hs hp
    rw [flatten_cons] at hp
    cases seg with
    | txt w =>
      have hw : '_' ∉ w := h (Seg.txt w) (List.mem_cons_self _ _)
      exact no_block_pfx_helper HF w hw s z hs hp
    | src n =>
      exact no_block_pfx_helper HF (srcMarker n) (underscore_not_mem_srcMarker n) s z hs hp
    | bare n =>
      exact no_block_pfx_helper HF ('[' :: (natToDigits n ++ [']']))
        (underscore_not_mem_bare_flat n) s z hs hp
    | ph i =>
      rw [show (Seg.ph i).flat = tempMarker i from rfl, tempMarker_cons3] at hp
      cases s with
      | nil =>
        rw [List.nil_append, List.cons_append, List.cons_prefix_cons] at hp
        obtain ⟨-, hp'⟩ := hp
        rw [List.cons_append, List.cons_prefix_cons] at hp'
        exact absurd hp'.1 (by decide)
      | cons a s' =>
        rw [List.cons_append, List.cons_append, List.cons_prefix_cons] at hp
        exact hs (hp.1 ▸ List.mem_cons_self _ _)

theorem no_usT_pfx (segs : List Seg) (h : ∀ s ∈ segs, Seg3OK s) :
    ∀ (z : List Char), ¬ ('_' :: 'T' :: z) <+: flatten segs := by
  induction segs with
  | nil =>
    intro z hp
    rw [flatten_nil, List.prefix_nil] at hp
    exact absurd hp (by simp)
  | cons seg rest ih =>
    have hrest : ∀ x ∈ rest, Seg3OK x := fun x hx => h x (List.mem_cons_of_mem _ hx)
    intro z hp
    rw [flatten_cons] at hp
    cases seg with
    | txt w =>
      have hw : '_' ∉ w := h (Seg.txt w) (List.mem_cons_self _ _)
      cases w with
      | nil => exact ih hrest z (by simpa [Seg.flat] using hp)
      | cons c w' =>
        rw [show (Seg.txt (c :: w')).flat = c :: w' from rfl,
            List.cons_append, List.cons_prefix_cons] at hp
        exact hw (hp.1 ▸ List.mem_cons_self _ _)
    | src n =>
      rw [show (Seg.src n).flat = srcMarker n from rfl,
          show srcMarker n ++ flatten rest =
            '[' :: ((sourceTag ++ natToDigits n ++ [']']) ++ flatten rest) from by
              simp [srcMarker, List.append_assoc]] at hp
      rw [List.cons_prefix_cons] at hp
      exact absurd hp.1 (by decide)
    | bare n =>
      rw [show (Seg.bare n).flat ++ flatten rest =
            '[' :: ((natToDigits n ++ [']']) ++ flatten rest) from rfl] at hp
      rw [List.cons_prefix_cons] at hp
      exact absurd hp.1 (by decide)
    | ph i =>
      rw [show (Seg.ph i).flat = tempMarker i from rfl, tempMarker_cons3] at hp
      rw [List.cons_append, List.cons_prefix_cons] at hp
      obtain ⟨-, hp'⟩ := hp
      rw [List.cons_append, List.cons_prefix_cons] at hp'
      exact absurd hp'.1 (by decide)

/-- The segment action of replacing the placeholder `__TEMP_SOURCE_j__` by
the segment `r`. -/
def mapPhTo (j : Nat) (r : Seg) : Seg → Seg
  | Seg.ph i => if i = j then r else Seg.ph i
  | s => s

theorem tempMarker_head (j : Nat) : (tempMarker j).head? = some '_' := rfl

theorem tempMarker_ne_nil (j : Nat) : tempMarker j ≠ [] := by
  simp [tempMarker, tempTag]

theorem replaceAll_temp_walk (j i : Nat) (rep : List Char) (rest : List Seg)
    (h : ∀ s ∈ rest, Seg3OK s) (hij : i ≠ j) :
    replaceAll (tempMarker j) rep (tempMarker i ++ flatten rest) =
      tempMarker i ++ replaceAll (tempMarker j) rep (flatten rest) := by
  have hG := no_us_S_pfx rest h
  have hG2 := no_usT_pfx rest h
  obtain ⟨d, ds, hnd⟩ := List.exists_cons_of_ne_nil (natToDigits_ne_nil i)
  have hdig : d.isDigit = true := by
    apply mem_natToDigits_isDigit (n := i)
    rw [hnd]
    exact List.mem_cons_self _ _
  have hpat1 : (tempMarker j)[1]? = some '_' := rfl
  -- step e9: skip the final underscore of the placeholder
  have e9 : replaceAll (tempMarker j) rep ('_' :: flatten rest) =
      '_' :: replaceAll (tempMarker j) rep (flatten rest) := by
    apply replaceAll_cons_skip
    intro hp
    rw [tempMarker_cons3, List.cons_prefix_cons] at hp
    exact hG2 _ hp.2
  -- step e8: skip the first trailing underscore
  have e8 : replaceAll (tempMarker j) rep ('_' :: ('_' :: flatten rest)) =
      '_' :: ('_' :: replaceAll (tempMarker j) rep (flatten rest)) := by
    rw [replaceAll_cons_skip, e9]
    intro hp
    rw [tempMarker_cons3, List.cons_prefix_cons] at hp
    obtain ⟨-, hp'⟩ := hp
    rw [List.cons_prefix_cons] at hp'
    obtain ⟨-, hp''⟩ := hp'
    have hT : ('T' :: (['E', 'M', 'P', '_', 'S', 'O', 'U', 'R', 'C', 'E', '_'] ++
        natToDigits j ++ ['_', '_'])) =
        ['T', 'E', 'M', 'P'] ++ '_' :: 'S' ::
          (['O', 'U', 'R', 'C', 'E', '_'] ++ natToDigits j ++ ['_', '_']) := by
      simp
    rw [hT] at hp''
    exact hG _ _ (by decide) hp''
  -- step e7: skip the digit run
  have e7 : replaceAll (tempMarker j) rep
        (natToDigits i ++ ('_' :: ('_' :: flatten rest))) =
      natToDigits i ++ ('_' :: ('_' :: replaceAll (tempMarker j) rep (flatten rest))) := by
    rw [replaceAll_skip_block _ _ (tempMarker_head j) (underscore_not_mem_natToDigits i),
        e8]
  -- step e6: skip the underscore before the digit run
  have e6 : replaceAll (tempMarker j) rep
        ('_' :: (natToDigits i ++ ('_' :: ('_' :: flatten rest)))) =
      '_' :: (natToDigits i ++ ('_' :: ('_' ::
        replaceAll (tempMarker j) rep (flatten rest)))) := by
    rw [replaceAll_cons_skip, e7]
    have htgt : ('_' :: (natToDigits i ++ ('_' :: ('_' :: flatten rest))))[1]? =
        some d := by
      rw [hnd]
      simp
    apply not_pfx_of_getElem hpat1 htgt
    intro hud
    rw [← hud] at hdig
    exact absurd hdig (by decide)
  -- step e5: skip the block SOURCE
  have e5 : replaceAll (tempMarker j) rep
        (['S', 'O', 'U', 'R', 'C', 'E'] ++
          ('_' :: (natToDigits i ++ ('_' :: ('_' :: flatten rest))))) =
      ['S', 'O', 'U', 'R', 'C', 'E'] ++
        ('_' :: (natToDigits i ++ ('_' :: ('_' ::
          replaceAll (tempMarker j) rep (flatten rest))))) := by
    rw [replaceAll_skip_block _ _ (tempMarker_head j) (by decide), e6]
  -- step e4: skip the underscore before S
  have e4 : replaceAll (tempMarker j) rep
        ('_' :: (['S', 'O', 'U', 'R', 'C', 'E'] ++
          ('_' :: (natToDigits i ++ ('_' :: ('_' :: flatten rest)))))) =
      '_' :: (['S', 'O', 'U', 'R', 'C', 'E'] ++
        ('_' :: (natToDigits i ++ ('_' :: ('_' ::
          replaceAll (tempMarker j) rep (flatten rest)))))) := by
    rw [replaceAll_cons_skip, e5]
    have htgt : ('_' :: (['S', 'O', 'U', 'R', 'C', 'E'] ++
        ('_' :: (natToDigits i ++ ('_' :: ('_' :: flatten rest))))))[1]? =
        some 'S' := rfl
    exact not_pfx_of_getElem hpat1 htgt (by decide)
  -- step e3: skip the block TEMP
  have e3 : replaceAll (tempMarker j) rep
        (['T', 'E', 'M', 'P'] ++ ('_' :: (['S', 'O', 'U', 'R', 'C', 'E'] ++
          ('_' :: (natToDigits i ++ ('_' :: ('_' :: flatten rest))))))) =
      ['T', 'E', 'M', 'P'] ++ ('_' :: (['S', 'O', 'U', 'R', 'C', 'E'] ++
        ('_' :: (natToDigits i ++ ('_' :: ('_' ::
          replaceAll (tempMarker j) rep (flatten rest))))))) := by
    rw [replaceAll_skip_block _ _ (tempMarker_head j) (by decide), e4]
  -- step e2: skip the second leading underscore
  have e2 : replaceAll (tempMarker j) rep
        ('_' :: (['T', 'E', 'M', 'P'] ++ ('_' :: (['S', 'O', 'U', 'R', 'C', 'E'] ++
          ('_' :: (natToDigits i ++ ('_' :: ('_' :: flatten rest)))))))) =
      '_' :: (['T', 'E', 'M', 'P'] ++ ('_' :: (['S', 'O', 'U', 'R', 'C', 'E'] ++
        ('_' :: (natToDigits i ++ ('_' :: ('_' ::
          replaceAll (tempMarker j) rep (flatten rest)))))))) := by
    rw [replaceAll_cons_skip, e3]
    have htgt : ('_' :: (['T', 'E', 'M', 'P'] ++ ('_' :: (['S', 'O', 'U', 'R', 'C', 'E'] ++
        ('_' :: (natToDigits i ++ ('_' :: ('_' :: flatten rest))))))))[1]? =
        some 'T' := rfl
    exact not_pfx_of_getElem hpat1 htgt (by decide)
  -- the top shape of the scanned text
  have htop : tempMarker i ++ flatten rest =
      '_' :: ('_' :: (['T', 'E', 'M', 'P'] ++ ('_' :: (['S', 'O', 'U', 'R', 'C', 'E'] ++
        ('_' :: (natToDigits i ++ ('_' :: ('_' :: flatten rest)))))))) := by
    simp [tempMarker, tempTag]
  have hbot : tempMarker i ++ replaceAll (tempMarker j) rep (flatten rest) =
      '_' :: ('_' :: (['T', 'E', 'M', 'P'] ++ ('_' :: (['S', 'O', 'U', 'R', 'C', 'E'] ++
        ('_' :: (natToDigits i ++ ('_' :: ('_' ::
          replaceAll (tempMarker j) rep (flatten rest))))))))) := by
    simp [tempMarker, tempTag]
  -- step e1: skip the first leading underscore, using the top-level mismatch
  have e1top : ¬ tempMarker j <+: (tempMarker i ++ flatten rest) := by
    intro hp
    have hA : tempMarker j = tempTag ++ (natToDigits j ++ '_' :: ('_' :: [])) := by
      simp [tempMarker]
    have hB : tempMarker i ++ flatten rest =
        tempTag ++ (natToDigits i ++ '_' :: ('_' :: flatten rest)) := by
      simp [tempMarker, List.append_assoc]
    rw [hA, hB, List.prefix_append_right_inj] at hp
    exact not_pfx_digits (fun a ha => mem_natToDigits_isDigit ha)
      (fun a ha => mem_natToDigits_isDigit ha)
      (fun heq => hij (natToDigits_inj heq).symm)
      (by decide) (by decide) hp
  rw [htop] at e1top ⊢
  rw [replaceAll_cons_skip e1top, e2, hbot]

/-- The segment action of the bare-number scrub: delete bare markers. -/
def killBare : Seg → Seg
  | Seg.bare _ => Seg.txt []
  | s => s

theorem bracket_not_mem_bare_tail (n : Nat) : '[' ∉ natToDigits n ++ [']'] := by
  intro hm
  rcases List.mem_append.mp hm with hm | hm
  · exact bracket_not_mem_natToDigits n hm
  · simp at hm

/-- The segment action of replacing the marker `[Source X]` by the
segment `r`. -/
def mapSrcTo (X : Nat) (r : Seg) : Seg → Seg
  | Seg.src n => if n = X then r else Seg.src n
  | s => s

theorem srcMarker_head (n : Nat) : (srcMarker n).head? = some '[' := rfl

theorem srcMarker_ne_nil (n : Nat) : srcMarker n ≠ [] := by
  simp [srcMarker]

theorem replaceAll_src_flatten (X : Nat) (r : Seg) (segs : List Seg)
    (h : ∀ s ∈ segs, SegBrk s) :
    replaceAll (srcMarker X) r.flat (flatten segs) =
      flatten (segs.map (mapSrcTo X r)) := by
  induction segs with
  | nil => rfl
  | cons s rest ih =>
    have hrest : ∀ x ∈ rest, SegBrk x := fun x hx => h x (List.mem_cons_of_mem _ hx)
    have ihr := ih hrest
    rw [flatten_cons, List.map_cons, flatten_cons]
    cases s with
    | txt w =>
      have hw : '[' ∉ w := h (Seg.txt w) (List.mem_cons_self _ _)
      rw [show (Seg.txt w).flat = w from rfl,
          replaceAll_skip_block w (flatten rest) (srcMarker_head X) hw, ihr]
      rfl
    | src n =>
      by_cases hnX : n = X
      · subst hnX
        rw [show (Seg.src n).flat = srcMarker n from rfl,
            replaceAll_here (flatten rest) (srcMarker_ne_nil n), ihr]
        rw [show mapSrcTo n r (Seg.src n) = r by simp [mapSrcTo]]
      · have hmap : mapSrcTo X r (Seg.src n) = Seg.src n := by
          simp [mapSrcTo, hnX]
        rw [hmap]
        have hx : srcMarker n ++ flatten rest =
            '[' :: ((sourceTag ++ natToDigits n ++ [']']) ++ flatten rest) := by
          simp [srcMarker, List.append_assoc]
        have hnp : ¬ srcMarker X <+:
            ('[' :: ((sourceTag ++ natToDigits n ++ [']']) ++ flatten rest)) := by
          rw [show srcMarker X = '[' :: (sourceTag ++ natToDigits X ++ [']']) from by
            simp [srcMarker]]
          rw [List.cons_prefix_cons]
          rintro ⟨-, hp⟩
          have hA : sourceTag ++ natToDigits X ++ [']'] =
              sourceTag ++ (natToDigits X ++ ']' :: []) := by
            simp
          have hB : (sourceTag ++ natToDigits n ++ [']']) ++ flatten rest =
              sourceTag ++ (natToDigits n ++ ']' :: flatten rest) := by
            simp
          rw [hA, hB, List.prefix_append_right_inj] at hp
          exact not_pfx_digits (fun a ha => mem_natToDigits_isDigit ha)
            (fun a ha => mem_natToDigits_isDigit ha)
            (fun heq => hnX (natToDigits_inj heq).symm)
            (by decide) (by decide) hp
        rw [show (Seg.src n).flat = srcMarker n from rfl, hx,
            replaceAll_cons_skip hnp,
            replaceAll_skip_block _ (flatten rest) (srcMarker_head X)
              (bracket_not_mem_srcMarker_tail n), ihr]
        rw [show srcMarker n = '[' :: (sourceTag ++ natToDigits n ++ [']']) from by
          simp [srcMarker]]
        simp [List.append_assoc]
    | bare n =>
      have hmap : mapSrcTo X r (Seg.bare n) = Seg.bare n := rfl
      rw [hmap]
      obtain ⟨d, ds, hnd⟩ := List.exists_cons_of_ne_nil (natToDigits_ne_nil n)
      have hdig : d.isDigit = true := by
        apply mem_natToDigits_isDigit (n := n)
        rw [hnd]
        exact List.mem_cons_self _ _
      have hx : (Seg.bare n).flat ++ flatten rest =
          '[' :: ((natToDigits n ++ [']']) ++ flatten rest) := rfl
      have hnp : ¬ srcMarker X <+:
          ('[' :: ((natToDigits n ++ [']']) ++ flatten rest)) := by
        rw [show srcMarker X = '[' :: (sourceTag ++ natToDigits X ++ [']']) from by
          simp [srcMarker]]
        rw [List.cons_prefix_cons]
        rintro ⟨-, hp⟩
        have h0p : (sourceTag ++ natToDigits X ++ [']'])[0]? = some 'S' := rfl
        have h0t : ((natToDigits n ++ [']']) ++ flatten rest)[0]? = some d := by
          rw [hnd]
          simp
        have hdS : d ≠ 'S' := by
          intro hds
          rw [hds] at hdig
          exact absurd hdig (by decide)
        exact not_pfx_of_getElem h0p h0t (fun hc => hdS hc.symm) hp
      rw [hx, replaceAll_cons_skip hnp,
          replaceAll_skip_block _ (flatten rest) (srcMarker_head X)
            (bracket_not_mem_bare_tail n), ihr]
      rfl
    | ph j =>
      have hmap : mapSrcTo X r (Seg.ph j) = Seg.ph j := rfl
      rw [hmap]
      rw [show (Seg.ph j).flat = tempMarker j from rfl,
          replaceAll_skip_block _ (flatten rest) (srcMarker_head X)
            (bracket_not_mem_tempMarker j), ihr]

theorem removeBare_flatten (segs : List Seg) (h : ∀ s ∈ segs, SegBrk s) :
    removeBare (flatten segs) = flatten (segs.map killBare) := by
  induction segs with
  | nil => rfl
  | cons s rest ih =>
    have hrest : ∀ x ∈ rest, SegBrk x := fun x hx => h x (List.mem_cons_of_mem _ hx)
    have ihr := ih hrest
    rw [flatten_cons, List.map_cons, flatten_cons]
    cases s with
    | txt w =>
      have hw : '[' ∉ w := h (Seg.txt w) (List.mem_cons_self _ _)
      rw [show (Seg.txt w).flat = w from rfl, removeBare_skip_block _ hw, ihr]
      rfl
    | src n =>
      rw [show (Seg.src n).flat = srcMarker n from rfl, removeBare_src, ihr]
      rfl
    | bare n =>
      rw [show (Seg.bare n).flat = '[' :: (natToDigits n ++ [']']) from rfl,
          removeBare_bare, ihr]
      rfl
    | ph j =>
      rw [show (Seg.ph j).flat = tempMarker j from rfl,
          removeBare_skip_block _ (bracket_not_mem_tempMarker j), ihr]
      rfl

theorem underscore_not_mem_sourceTag : '_' ∉ sourceTag := by decide

theorem replaceAll_temp_flatten (j : Nat) (r : Seg) (segs : List Seg)
    (h : ∀ s ∈ segs, Seg3OK s) :
    replaceAll (tempMarker j) r.flat (flatten segs) =
      flatten (segs.map (mapPhTo j r)) := by
  induction segs with
  | nil => rfl
  | cons s rest ih =>
    have hrest : ∀ x ∈ rest, Seg3OK x := fun x hx => h x (List.mem_cons_of_mem _ hx)
    have ihr := ih hrest
    rw [flatten_cons, List.map_cons, flatten_cons]
    cases s with
    | txt w =>
      have hw : '_' ∉ w := h (Seg.txt w) (List.mem_cons_self _ _)
      rw [show (Seg.txt w).flat = w from rfl,
          replaceAll_skip_block w (flatten rest) (tempMarker_head j) hw, ihr]
      rfl
    | src n =>
      rw [show (Seg.src n).flat = srcMarker n from rfl,
          replaceAll_skip_block _ (flatten rest) (tempMarker_head j)
            (underscore_not_mem_srcMarker n), ihr]
      rfl
    | bare n =>
      rw [show (Seg.bare n).flat = '[' :: (natToDigits n ++ [']']) from rfl,
          replaceAll_skip_block _ (flatten rest) (tempMarker_head j)
            (underscore_not_mem_bare_flat n), ihr]
      rfl
    | ph i =>
      by_cases hji : i = j
      · subst hji
        rw [show (Seg.ph i).flat = tempMarker i from rfl,
            replaceAll_here (flatten rest) (tempMarker_ne_nil i), ihr]
        rw [show mapPhTo i r (Seg.ph i) = r by simp [mapPhTo]]
      · rw [show (Seg.ph i).flat = tempMarker i from rfl,
            replaceAll_temp_walk j i r.flat rest hrest hji, ihr]
        rw [show mapPhTo j r (Seg.ph i) = Seg.ph i by simp [mapPhTo, hji]]
        rfl

/-! ### The three replacement passes on segment lists -/

/-- Per-segment action of step 1 over the whole renumber map. -/
def seg1Map (pairs : List (Nat × Nat)) (s : Seg) : Seg :=
  pairs.foldl (fun s p => mapSrcTo p.2 (Seg.ph p.1) s) s

/-- Per-segment action of step 2 over the raw cited list. -/
def seg2Map (k : Nat) (cited : List Nat) (s : Seg) : Seg :=
  cited.foldl (fun s n => if n < 1 ∨ k < n then mapSrcTo n (Seg.txt []) s else s) s

/-- Per-segment action of step 3 over the renumber map. -/
def seg3Map (pairs : List (Nat × Nat)) (s : Seg) : Seg :=
  pairs.foldl (fun s p => mapPhTo p.1 (Seg.src p.1) s) s

theorem segOK_mapSrcTo (X : Nat) (r : Seg) (hr : SegOK r) (s : Seg) (hs : SegOK s) :
    SegOK (mapSrcTo X r s) := by
  cases s with
  | src n =>
    by_cases hnX : n = X
    · simpa [mapSrcTo, hnX] using hr
    · simpa [mapSrcTo, hnX] using hs
  | txt w => exact hs
  | bare n => exact hs
  | ph j => exact hs

theorem segOK_mapPhTo (j : Nat) (r : Seg) (hr : SegOK r) (s : Seg) (hs : SegOK s) :
    SegOK (mapPhTo j r s) := by
  cases s with
  | ph i =>
    by_cases hij : i = j
    · simpa [mapPhTo, hij] using hr
    · simpa [mapPhTo, hij] using hs
  | txt w => exact hs
  | bare n => exact hs
  | src n => exact hs

theorem segOK_killBare (s : Seg) (hs : SegOK s) : SegOK (killBare s) := by
  cases s with
  | bare n => simp [killBare, SegOK]
  | txt w => exact hs
  | src n => exact hs
  | ph j => exact hs

theorem segOK_seg1Map (pairs : List (Nat × Nat)) (s : Seg) (hs : SegOK s) :
    SegOK (seg1Map pairs s) := by
  induction pairs generalizing s with
  | nil => exact hs
  | cons p ps ih => exact ih _ (segOK_mapSrcTo p.2 (Seg.ph p.1) trivial s hs)

theorem segOK_seg2Map (k : Nat) (cited : List Nat) (s : Seg) (hs : SegOK s) :
    SegOK (seg2Map k cited s) := by
  induction cited generalizing s with
  | nil => exact hs
  | cons n ns ih =>
    by_cases hv : n < 1 ∨ k < n
    · exact ih _ (by
        show SegOK (if n < 1 ∨ k < n then mapSrcTo n (Seg.txt []) s else s)
        rw [if_pos hv]
        exact segOK_mapSrcTo n (Seg.txt []) (by simp [SegOK]) s hs)
    · exact ih _ (by
        show SegOK (if n < 1 ∨ k < n then mapSrcTo n (Seg.txt []) s else s)
        rw [if_neg hv]
        exact hs)

theorem segOK_brk {s : Seg} (hs : SegOK s) : SegBrk s := by
  cases s with
  | txt w => exact hs.1
  | src n => trivial
  | bare n => trivial
  | ph j => trivial

theorem segOK_s3 {s : Seg} (hs : SegOK s) : Seg3OK s := by
  cases s with
  | txt w => exact hs.2
  | src n => trivial
  | bare n => trivial
  | ph j => trivial

theorem renumberStep1_flatten (pairs : List (Nat × Nat)) (segs : List Seg)
    (h : ∀ s ∈ segs, SegOK s) :
    renumberStep1 pairs (flatten segs) = flatten (segs.map (seg1Map pairs)) := by
  induction pairs generalizing segs with
  | nil =>
    show flatten segs = flatten (segs.map (seg1Map []))
    congr 1
    exact (List.map_id' segs).symm
  | cons p ps ih =>
    show renumberStep1 ps (replaceAll (srcMarker p.2) (tempMarker p.1) (flatten segs)) =
      flatten (segs.map (seg1Map (p :: ps)))
    rw [show tempMarker p.1 = (Seg.ph p.1).flat from rfl]
    rw [replaceAll_src_flatten p.2 (Seg.ph p.1) segs (fun s hs => segOK_brk (h s hs))]
    rw [ih (segs.map (mapSrcTo p.2 (Seg.ph p.1)))
      (by
        intro s hs
        obtain ⟨x, hx, rfl⟩ := List.mem_map.mp hs
        exact segOK_mapSrcTo p.2 (Seg.ph p.1) trivial x (h x hx))]
    rw [List.map_map]
    rfl

theorem renumberStep2_flatten (k : Nat) (cited : List Nat) (segs : List Seg)
    (h : ∀ s ∈ segs, SegOK s) :
    renumberStep2 k cited (flatten segs) = flatten (segs.map (seg2Map k cited)) := by
  induction cited generalizing segs with
  | nil =>
    show flatten segs = flatten (segs.map (seg2Map k []))
    congr 1
    exact (List.map_id' segs).symm
  | cons n ns ih =>
    by_cases hv : n < 1 ∨ k < n
    · show renumberStep2 k ns
          (if n < 1 ∨ k < n then replaceAll (srcMarker n) [] (flatten segs)
           else flatten segs) = _
      rw [if_pos hv]
      rw [show ([] : List Char) = (Seg.txt []).flat from rfl]
      rw [replaceAll_src_flatten n (Seg.txt []) segs (fun s hs => segOK_brk (h s hs))]
      rw [ih (segs.map (mapSrcTo n (Seg.txt [])))
        (by
          intro s hs
          obtain ⟨x, hx, rfl⟩ := List.mem_map.mp hs
          exact segOK_mapSrcTo n (Seg.txt []) (by simp [SegOK]) x (h x hx))]
      rw [List.map_map]
      congr 1
      apply List.map_congr_left
      intro s _
      show seg2Map k ns (mapSrcTo n (Seg.txt []) s) =
        seg2Map k ns (if n < 1 ∨ k < n then mapSrcTo n (Seg.txt []) s else s)
      rw [if_pos hv]
    · show renumberStep2 k ns
          (if n < 1 ∨ k < n then replaceAll (srcMarker n) [] (flatten segs)
           else flatten segs) = _
      rw [if_neg hv]
      rw [ih segs h]
      congr 1
      apply List.map_congr_left
      intro s _
      show seg2Map k ns s =
        seg2Map k ns (if n < 1 ∨ k < n then mapSrcTo n (Seg.txt []) s else s)
      rw [if_neg hv]

theorem renumberStep3_flatten (pairs : List (Nat × Nat)) (segs : List Seg)
    (h : ∀ s ∈ segs, SegOK s) :
    renumberStep3 pairs (flatten segs) = flatten (segs.map (seg3Map pairs)) := by
  induction pairs generalizing segs with
  | nil =>
    show flatten segs = flatten (segs.map (seg3Map []))
    congr 1
    exact (List.map_id' segs).symm
  | cons p ps ih =>
    show renumberStep3 ps (replaceAll (tempMarker p.1) (srcMarker p.1) (flatten segs)) =
      flatten (segs.map (seg3Map (p :: ps)))
    rw [show srcMarker p.1 = (Seg.src p.1).flat from rfl]
    rw [replaceAll_temp_flatten p.1 (Seg.src p.1) segs (fun s hs => segOK_s3 (h s hs))]
    rw [ih (segs.map (mapPhTo p.1 (Seg.src p.1)))
      (by
        intro s hs
        obtain ⟨x, hx, rfl⟩ := List.mem_map.mp hs
        exact segOK_mapPhTo p.1 (Seg.src p.1) trivial x (h x hx))]
    rw [List.map_map]
    rfl


/-! ### Evaluating the per-segment maps -/

theorem seg1Map_txt (pairs : List (Nat × Nat)) (w : List Char) :
    seg1Map pairs (Seg.txt w) = Seg.txt w := by
  induction pairs with
  | nil => rfl
  | cons p ps ih => exact ih

theorem seg1Map_bare (pairs : List (Nat × Nat)) (n : Nat) :
    seg1Map pairs (Seg.bare n) = Seg.bare n := by
  induction pairs with
  | nil => rfl
  | cons p ps ih => exact ih

theorem seg1Map_ph (pairs : List (Nat × Nat)) (j : Nat) :
    seg1Map pairs (Seg.ph j) = Seg.ph j := by
  induction pairs with
  | nil => rfl
  | cons p ps ih => exact ih

theorem seg2Map_nonSrc (k : Nat) (cited : List Nat) (s : Seg)
    (hs : ∀ n, s ≠ Seg.src n) : seg2Map k cited s = s := by
  induction cited with
  | nil => rfl
  | cons n ns ih =>
    show seg2Map k ns (if n < 1 ∨ k < n then mapSrcTo n (Seg.txt []) s else s) = s
    have hstep : mapSrcTo n (Seg.txt []) s = s := by
      cases s with
      | src m => exact absurd rfl (hs m)
      | txt w => rfl
      | bare m => rfl
      | ph j => rfl
    rw [hstep, ite_self]
    exact ih

theorem seg3Map_txt (pairs : List (Nat × Nat)) (w : List Char) :
    seg3Map pairs (Seg.txt w) = Seg.txt w := by
  induction pairs with
  | nil => rfl
  | cons p ps ih => exact ih

theorem seg3Map_src (pairs : List (Nat × Nat)) (n : Nat) :
    seg3Map pairs (Seg.src n) = Seg.src n := by
  induction pairs with
  | nil => rfl
  | cons p ps ih => exact ih

theorem seg1Map_enumFrom_src (used : List Nat) : ∀ (start n : Nat),
    seg1Map (used.enumFrom start) (Seg.src n) =
      if n ∈ used then Seg.ph (start + List.indexOf n used) else Seg.src n := by
  induction used with
  | nil => intro start n; simp [seg1Map]
  | cons u us ih =>
    intro start n
    rw [List.enumFrom_cons]
    show seg1Map (List.enumFrom (start + 1) us) (mapSrcTo u (Seg.ph start) (Seg.src n)) = _
    by_cases hnu : n = u
    · subst hnu
      rw [show mapSrcTo n (Seg.ph start) (Seg.src n) = Seg.ph start by simp [mapSrcTo]]
      rw [seg1Map_ph]
      rw [if_pos (List.mem_cons_self n us), List.indexOf_cons_self]
      norm_num
    · rw [show mapSrcTo u (Seg.ph start) (Seg.src n) = Seg.src n by simp [mapSrcTo, hnu]]
      rw [ih (start + 1) n]
      by_cases hmem : n ∈ us
      · rw [if_pos hmem, if_pos (List.mem_cons_of_mem _ hmem)]
        rw [List.indexOf_cons_ne us (fun h => hnu h.symm)]
        congr 1
        omega
      · rw [if_neg hmem, if_neg (by
          intro hc
          rcases List.mem_cons.mp hc with h | h
          · exact hnu h
          · exact hmem h)]

theorem seg2Map_src_invalid (k : Nat) (cited : List Nat) (n : Nat)
    (hmem : n ∈ cited) (hinv : n < 1 ∨ k < n) :
    seg2Map k cited (Seg.src n) = Seg.txt [] := by
  induction cited with
  | nil => exact absurd hmem (List.not_mem_nil n)
  | cons m ms ih =>
    show seg2Map k ms (if m < 1 ∨ k < m then mapSrcTo m (Seg.txt []) (Seg.src n)
      else Seg.src n) = Seg.txt []
    by_cases hnm : n = m
    · subst hnm
      rw [if_pos hinv, show mapSrcTo n (Seg.txt []) (Seg.src n) = Seg.txt [] by
        simp [mapSrcTo]]
      exact seg2Map_nonSrc k ms (Seg.txt []) (fun _ h => by cases h)
    · have hms : n ∈ ms := by
        rcases List.mem_cons.mp hmem with h | h
        · exact absurd h hnm
        · exact h
      by_cases hmv : m < 1 ∨ k < m
      · rw [if_pos hmv, show mapSrcTo m (Seg.txt []) (Seg.src n) = Seg.src n by
          simp [mapSrcTo, hnm]]
        exact ih hms
      · rw [if_neg hmv]
        exact ih hms

theorem seg3Map_enumFrom_ph (used : List Nat) : ∀ (start j : Nat),
    start ≤ j → j < start + used.length →
    seg3Map (used.enumFrom start) (Seg.ph j) = Seg.src j := by
  induction used with
  | nil => intro start j h1 h2; simp at h2; omega
  | cons u us ih =>
    intro start j h1 h2
    rw [List.enumFrom_cons]
    show seg3Map (List.enumFrom (start + 1) us) (mapPhTo start (Seg.src start) (Seg.ph j)) = _
    by_cases hjs : j = start
    · subst hjs
      rw [show mapPhTo j (Seg.src j) (Seg.ph j) = Seg.src j by simp [mapPhTo]]
      exact seg3Map_src _ j
    · rw [show mapPhTo start (Seg.src start) (Seg.ph j) = Seg.ph j by
        simp [mapPhTo, hjs]]
      refine ih (start + 1) j (by omega) (by
        rw [List.length_cons] at h2
        omega)

/-- The net per-segment effect of the whole renumbering pipeline. -/
def finalSeg (used : List Nat) : Seg → Seg
  | Seg.txt w => Seg.txt w
  | Seg.src n => if n ∈ used then Seg.src (1 + List.indexOf n used) else Seg.txt []
  | Seg.bare _ => Seg.txt []
  | Seg.ph j => Seg.ph j

theorem composite_seg (k : Nat) (used cited : List Nat) (s : Seg) (hs : InputOK s)
    (hsrc : ∀ n, s = Seg.src n → n ∈ cited)
    (hval : ∀ n, n ∈ used ↔ n ∈ cited ∧ 1 ≤ n ∧ n ≤ k) :
    seg3Map (used.enumFrom 1)
      (killBare (seg2Map k cited (seg1Map (used.enumFrom 1) s))) = finalSeg used s := by
  cases s with
  | txt w =>
    rw [seg1Map_txt, seg2Map_nonSrc k cited _ (fun _ h => by cases h)]
    rw [show killBare (Seg.txt w) = Seg.txt w from rfl, seg3Map_txt]
    rfl
  | src n =>
    by_cases hmem : n ∈ used
    · rw [seg1Map_enumFrom_src used 1 n, if_pos hmem]
      rw [seg2Map_nonSrc k cited _ (fun _ h => by cases h)]
      rw [show killBare (Seg.ph (1 + List.indexOf n used)) = Seg.ph (1 + List.indexOf n used)
        from rfl]
      rw [seg3Map_enumFrom_ph used 1 (1 + List.indexOf n used) (by omega)
        (by
          have := List.indexOf_lt_length.mpr hmem
          omega)]
      rw [show finalSeg used (Seg.src n) = if n ∈ used then Seg.src (1 + List.indexOf n used)
        else Seg.txt [] from rfl, if_pos hmem]
    · rw [seg1Map_enumFrom_src used 1 n, if_neg hmem]
      have hc : n ∈ cited := hsrc n rfl
      have hinv : n < 1 ∨ k < n := by
        have := (hval n).not.mp hmem
        by_contra hcon
        push_neg at hcon
        exact this ⟨hc, by omega, by omega⟩
      rw [seg2Map_src_invalid k cited n hc hinv]
      rw [show killBare (Seg.txt []) = Seg.txt [] from rfl, seg3Map_txt]
      rw [show finalSeg used (Seg.src n) = if n ∈ used then Seg.src (1 + List.indexOf n used)
        else Seg.txt [] from rfl, if_neg hmem]
  | bare n =>
    rw [seg1Map_bare, seg2Map_nonSrc k cited _ (fun _ h => by cases h)]
    rw [show killBare (Seg.bare n) = Seg.txt [] from rfl, seg3Map_txt]
    rfl
  | ph j => exact absurd hs (by simp [InputOK])

/-! ### The whole pipeline on a segmented response -/

theorem pairs_eq (lookup : Nat → Citation) (k : Nat) (used : List Nat)
    (husedval : ∀ n ∈ used, 1 ≤ n ∧ n ≤ k)
    (hl : ∀ n, 1 ≤ n → n ≤ k → (lookup n).sourceNum = n) :
    ((used.map lookup).enumFrom 1).map (fun p => (p.1, p.2.sourceNum)) =
      used.enumFrom 1 := by
  rw [List.enumFrom_map 1 used lookup, List.map_map]
  have hcong : ∀ p ∈ used.enumFrom 1,
      ((fun p : Nat × Citation => (p.1, p.2.sourceNum)) ∘ Prod.map id lookup) p =
        (fun a => a) p := by
    intro p hp
    have hp2 : p.2 ∈ used := by
      have := List.mem_map_of_mem Prod.snd hp
      rwa [List.enumFrom_map_snd] at this
    obtain ⟨h1, h2⟩ := husedval p.2 hp2
    show (p.1, (lookup p.2).sourceNum) = p
    rw [hl p.2 h1 h2]
  rw [List.map_congr_left hcong, List.map_id']

theorem processResponse_fst_flatten (lookup : Nat → Citation) (k : Nat)
    (segs : List Seg) (hin : ∀ s ∈ segs, InputOK s)
    (hl : ∀ n, 1 ≤ n → n ≤ k → (lookup n).sourceNum = n)
    (hne : dedupValid k [] (scanSources (flatten segs)) ≠ []) :
    (processResponse lookup k (flatten segs)).1 =
      stripWS (collapseWS (flatten (segs.map
        (finalSeg (dedupValid k [] (scanSources (flatten segs))))))) := by
  have hOK : ∀ s ∈ segs, SegOK s := by
    intro s hs
    have h := hin s hs
    cases s with
    | txt w => exact h
    | src n => trivial
    | bare n => trivial
    | ph j => exact h.elim
  have husedval : ∀ n ∈ dedupValid k [] (scanSources (flatten segs)), 1 ≤ n ∧ n ≤ k := by
    intro n hn
    obtain ⟨-, -, h1, h2⟩ := (mem_dedupValid k _ [] n).mp hn
    exact ⟨h1, h2⟩
  rw [processResponse_fst lookup k (flatten segs) hne]
  rw [pairs_eq lookup k _ husedval hl]
  rw [renumberStep1_flatten _ segs hOK]
  have hOK1 : ∀ s ∈ segs.map (seg1Map ((dedupValid k []
      (scanSources (flatten segs))).enumFrom 1)), SegOK s := by
    intro s hs
    obtain ⟨x, hx, rfl⟩ := List.mem_map.mp hs
    exact segOK_seg1Map _ x (hOK x hx)
  rw [renumberStep2_flatten k _ _ hOK1, List.map_map]
  have hOK2 : ∀ s ∈ segs.map (seg2Map k (scanSources (flatten segs)) ∘
      seg1Map ((dedupValid k [] (scanSources (flatten segs))).enumFrom 1)),
      SegOK s := by
    intro s hs
    obtain ⟨x, hx, rfl⟩ := List.mem_map.mp hs
    exact segOK_seg2Map k _ _ (segOK_seg1Map _ x (hOK x hx))
  rw [removeBare_flatten _ (fun s hs => segOK_brk (hOK2 s hs)), List.map_map]
  have hOK3 : ∀ s ∈ segs.map (killBare ∘ (seg2Map k (scanSources (flatten segs)) ∘
      seg1Map ((dedupValid k [] (scanSources (flatten segs))).enumFrom 1))),
      SegOK s := by
    intro s hs
    obtain ⟨x, hx, rfl⟩ := List.mem_map.mp hs
    exact segOK_killBare _ (segOK_seg2Map k _ _ (segOK_seg1Map _ x (hOK x hx)))
  rw [renumberStep3_flatten _ _ hOK3, List.map_map]
  refine congrArg (fun l => stripWS (collapseWS (flatten l))) ?_
  apply List.map_congr_left
  intro s hs
  show seg3Map _ (killBare (seg2Map k _ (seg1Map _ s))) = _
  refine composite_seg k _ _ s (hin s hs) ?_ ?_
  · intro n hsn
    subst hsn
    rw [scanSources_flatten segs (fun x hx => segOK_brk (hOK x hx))]
    exact List.mem_filterMap.mpr ⟨Seg.src n, hs, rfl⟩
  · intro n
    rw [mem_dedupValid k _ [] n]
    simp only [List.not_mem_nil, not_false_iff, true_and]

/-- Map from the output citation list back to the originals: the second
component of `process_response` records exactly the deduplicated valid
cited numbers, in order. -/
theorem processResponse_map_orig (lookup : Nat → Citation) (k : Nat)
    (text : List Char)
    (hl : ∀ n, 1 ≤ n → n ≤ k → (lookup n).sourceNum = n) :
    (processResponse lookup k text).2.map (fun c => c.originalSourceNum) =
      dedupValid k [] (scanSources text) := by
  rw [processResponse_snd, List.map_map]
  have hcong : ∀ p ∈ (dedupValid k [] (scanSources text)).enumFrom 1,
      ((fun c : RenumberedCitation => c.originalSourceNum) ∘ fun p : Nat × Nat =>
        ({ newSourceNum := p.1
           originalSourceNum := (lookup p.2).sourceNum
           filename := (lookup p.2).filename
           page := (lookup p.2).page
           relevanceScore := (lookup p.2).relevanceScore
           content := (lookup p.2).content } : RenumberedCitation)) p =
        Prod.snd p := by
    intro p hp
    have hp2 : p.2 ∈ dedupValid k [] (scanSources text) := by
      have := List.mem_map_of_mem Prod.snd hp
      rwa [List.enumFrom_map_snd] at this
    obtain ⟨-, -, h1, h2⟩ := (mem_dedupValid k _ [] p.2).mp hp2
    show (lookup p.2).sourceNum = p.2
    exact hl p.2 h1 h2
  rw [List.map_congr_left hcong, List.enumFrom_map_snd]

/-! ### Pulling pattern occurrences back through whitespace collapsing -/

theorem collapseWS_prefix_pull_nws (p : List Char) (hws : ∀ c ∈ p, ¬ isWS c) :
    ∀ t, p <+: collapseWS t → p <+: t := by
  induction p with
  | nil => intro t _; exact List.nil_prefix
  | cons a p' ih =>
    intro t hp
    cases t with
    | nil =>
      rw [collapseWS_nil] at hp
      exact absurd (List.prefix_nil.mp hp) (List.cons_ne_nil a p')
    | cons c r =>
      rw [collapseWS_cons] at hp
      by_cases hc : isWS c
      · rw [if_pos hc] at hp
        obtain ⟨ha, -⟩ := List.cons_prefix_cons.mp hp
        exact absurd (by rw [ha]; decide) (hws a (List.mem_cons_self _ _))
      · rw [if_neg hc] at hp
        obtain ⟨ha, hp'⟩ := List.cons_prefix_cons.mp hp
        subst ha
        exact List.cons_prefix_cons.mpr
          ⟨rfl, ih (fun d hd => hws d (List.mem_cons_of_mem _ hd)) r hp'⟩

theorem collapseWS_prefix_pull_sp (ys : List Char) (hys : ∀ c ∈ ys, ¬ isWS c) :
    ∀ (xs : List Char), (∀ c ∈ xs, ¬ isWS c) →
    ∀ t, (xs ++ ' ' :: ys) <+: collapseWS t →
      ∃ w, w ≠ [] ∧ (∀ c ∈ w, isWS c) ∧ (xs ++ (w ++ ys)) <+: t := by
  intro xs
  induction xs with
  | nil =>
    intro _ t hp
    cases t with
    | nil =>
      rw [collapseWS_nil] at hp
      simp only [List.nil_append] at hp
      exact absurd (List.prefix_nil.mp hp) (List.cons_ne_nil ' ' ys)
    | cons c r =>
      rw [collapseWS_cons] at hp
      simp only [List.nil_append] at hp
      by_cases hc : isWS c
      · rw [if_pos hc] at hp
        obtain ⟨-, hp'⟩ := List.cons_prefix_cons.mp hp
        have hys' := collapseWS_prefix_pull_nws ys hys _ hp'
        refine ⟨c :: r.takeWhile isWS, List.cons_ne_nil _ _, ?_, ?_⟩
        · intro d hd
          rcases List.mem_cons.mp hd with rfl | hd
          · exact hc
          · exact List.mem_takeWhile_imp hd
        · show (c :: r.takeWhile isWS) ++ ys <+: c :: r
          rw [List.cons_append]
          refine List.cons_prefix_cons.mpr ⟨rfl, ?_⟩
          conv_rhs => rw [← List.takeWhile_append_dropWhile isWS r]
          exact (List.prefix_append_right_inj (r.takeWhile isWS)).mpr hys'
      · rw [if_neg hc] at hp
        obtain ⟨hsp, -⟩ := List.cons_prefix_cons.mp hp
        exact absurd (by rw [← hsp]; decide) hc
  | cons a xs' ih =>
    intro hxs t hp
    cases t with
    | nil =>
      rw [collapseWS_nil] at hp
      rw [List.cons_append] at hp
      exact absurd (List.prefix_nil.mp hp) (List.cons_ne_nil _ _)
    | cons c r =>
      rw [collapseWS_cons] at hp
      rw [List.cons_append] at hp
      by_cases hc : isWS c
      · rw [if_pos hc] at hp
        obtain ⟨ha, -⟩ := List.cons_prefix_cons.mp hp
        exact absurd (by rw [ha]; decide) (hxs a (List.mem_cons_self _ _))
      · rw [if_neg hc] at hp
        obtain ⟨ha, hp'⟩ := List.cons_prefix_cons.mp hp
        subst ha
        obtain ⟨w, hw1, hw2, hw3⟩ :=
          ih (fun d hd => hxs d (List.mem_cons_of_mem _ hd)) r hp'
        exact ⟨w, hw1, hw2, by
          rw [List.cons_append]
          exact List.cons_prefix_cons.mpr ⟨rfl, hw3⟩⟩

theorem collapseWS_infix_pull_nws (p : List Char) (hne : p ≠ [])
    (hws : ∀ c ∈ p, ¬ isWS c) :
    ∀ t, p <:+: collapseWS t → p <:+: t := by
  have H : ∀ (n : Nat) (t : List Char), t.length ≤ n →
      p <:+: collapseWS t → p <:+: t := by
    intro n
    induction n with
    | zero =>
      intro t ht hp
      have : t = [] := by cases t with | nil => rfl | cons c r => simp at ht
      subst this
      rw [collapseWS_nil] at hp
      exact absurd (List.infix_nil.mp hp) hne
    | succ n ih =>
      intro t ht hp
      cases t with
      | nil =>
        rw [collapseWS_nil] at hp
        exact absurd (List.infix_nil.mp hp) hne
      | cons c r =>
        have hr : r.length ≤ n := by
          rw [List.length_cons] at ht
          omega
        rw [collapseWS_cons] at hp
        by_cases hc : isWS c
        · rw [if_pos hc] at hp
          rcases List.infix_cons_iff.mp hp with hpre | hinf
          · obtain ⟨a, p', rfl⟩ := List.exists_cons_of_ne_nil hne
            obtain ⟨ha, -⟩ := List.cons_prefix_cons.mp hpre
            exact absurd (by rw [ha]; decide) (hws a (List.mem_cons_self _ _))
          · have h1 := ih (r.dropWhile isWS)
              (le_trans (List.dropWhile_sublist isWS).length_le hr) hinf
            exact List.infix_cons
              ( List.IsInfix.trans h1 ( List.IsSuffix.isInfix (List.dropWhile_suffix isWS)))
        · rw [if_neg hc] at hp
          rcases List.infix_cons_iff.mp hp with hpre | hinf
          · have hpc : p <+: collapseWS (c :: r) := by
              rw [collapseWS_cons, if_neg hc]
              exact hpre
            exact List.IsPrefix.isInfix (collapseWS_prefix_pull_nws p hws _ hpc)
          · exact List.infix_cons (ih r hr hinf)
  exact fun t => H t.length t (le_refl _)

theorem collapseWS_infix_pull_sp (xs ys : List Char) (hxne : xs ≠ [])
    (hxs : ∀ c ∈ xs, ¬ isWS c) (hys : ∀ c ∈ ys, ¬ isWS c) :
    ∀ t, (xs ++ ' ' :: ys) <:+: collapseWS t →
      ∃ w, w ≠ [] ∧ (∀ c ∈ w, isWS c) ∧ (xs ++ (w ++ ys)) <:+: t := by
  have H : ∀ (n : Nat) (t : List Char), t.length ≤ n →
      (xs ++ ' ' :: ys) <:+: collapseWS t →
      ∃ w, w ≠ [] ∧ (∀ c ∈ w, isWS c) ∧ (xs ++ (w ++ ys)) <:+: t := by
    intro n
    induction n with
    | zero =>
      intro t ht hp
      have : t = [] := by cases t with | nil => rfl | cons c r => simp at ht
      subst this
      rw [collapseWS_nil] at hp
      have := List.infix_nil.mp hp
      exact absurd this (by simp [hxne])
    | succ n ih =>
      intro t ht hp
      cases t with
      | nil =>
        rw [collapseWS_nil] at hp
        have := List.infix_nil.mp hp
        exact absurd this (by simp [hxne])
      | cons c r =>
        have hr : r.length ≤ n := by
          rw [List.length_cons] at ht
          omega
        rw [collapseWS_cons] at hp
        by_cases hc : isWS c
        · rw [if_pos hc] at hp
          rcases List.infix_cons_iff.mp hp with hpre | hinf
          · obtain ⟨a, xs', rfl⟩ := List.exists_cons_of_ne_nil hxne
            rw [List.cons_append] at hpre
            obtain ⟨ha, -⟩ := List.cons_prefix_cons.mp hpre
            exact absurd (by rw [ha]; decide) (hxs a (List.mem_cons_self _ _))
          · obtain ⟨w, hw1, hw2, hw3⟩ := ih (r.dropWhile isWS)
              (le_trans (List.dropWhile_sublist isWS).length_le hr) hinf
            exact ⟨w, hw1, hw2, List.infix_cons
              ( List.IsInfix.trans hw3
                ( List.IsSuffix.isInfix (List.dropWhile_suffix isWS)))⟩
        · rw [if_neg hc] at hp
          rcases List.infix_cons_iff.mp hp with hpre | hinf
          · have hpc : (xs ++ ' ' :: ys) <+: collapseWS (c :: r) := by
              rw [collapseWS_cons, if_neg hc]
              exact hpre
            obtain ⟨w, hw1, hw2, hw3⟩ :=
              collapseWS_prefix_pull_sp ys hys xs hxs _ hpc
            exact ⟨w, hw1, hw2, List.IsPrefix.isInfix hw3⟩
          · obtain ⟨w, hw1, hw2, hw3⟩ := ih r hr hinf
            exact ⟨w, hw1, hw2, List.infix_cons hw3⟩
  exact fun t => H t.length t (le_refl _)

/-! ### No spurious marker occurrences in the final segment flattening -/

/-- Wellformedness of the output segments: text blocks are bracket-free and
surviving markers carry a number in `[1, k]`. -/
def OutSegOK (k : Nat) : Seg → Prop
  | Seg.txt w => '[' ∉ w
  | Seg.src n => 1 ≤ n ∧ n ≤ k
  | Seg.bare _ => False
  | Seg.ph _ => False

theorem crossBlock (p : List Char) (hh : p.head? = some '[') :
    ∀ (b F : List Char), '[' ∉ b → p <:+: (b ++ F) → p <:+: F := by
  intro b
  induction b with
  | nil => intro F _ hp; simpa using hp
  | cons c b' ih =>
    intro F hb hp
    rw [List.cons_append] at hp
    rcases List.infix_cons_iff.mp hp with hpre | hinf
    · cases p with
      | nil => exact Option.noConfusion hh
      | cons a p' =>
        have ha : a = '[' := Option.some.inj hh
        obtain ⟨hac, -⟩ := List.cons_prefix_cons.mp hpre
        apply absurd _ hb
        rw [← hac, ← ha]
        exact List.mem_cons_self _ _
    · exact ih F (fun hm => hb (List.mem_cons_of_mem _ hm)) hinf

theorem srcMarker_append_cons (n : Nat) (F : List Char) :
    srcMarker n ++ F = '[' :: ((sourceTag ++ (natToDigits n ++ [']'])) ++ F) := by
  simp [srcMarker]

theorem bracket_not_mem_src_tail_block (n : Nat) :
    '[' ∉ sourceTag ++ (natToDigits n ++ [']']) := by
  intro hmem
  rcases List.mem_append.mp hmem with hm | hm
  · exact absurd hm (by decide)
  rcases List.mem_append.mp hm with hm2 | hm2
  · exact bracket_not_mem_natToDigits n hm2
  · simp at hm2

theorem c3_no_bad_flat (segs : List Seg) (h : ∀ s ∈ segs, OutSegOK 5 s)
    (w : List Char) (hw : ∀ c ∈ w, isWS c) :
    ¬ (['[','S','o','u','r','c','e'] ++ (w ++ ['9','9','9',']'])) <:+: flatten segs := by
  induction segs with
  | nil =>
    intro hp
    rw [flatten_nil] at hp
    have := List.infix_nil.mp hp
    simp at this
  | cons s rest ih =>
    have hrest := fun x hx => h x (List.mem_cons_of_mem _ hx)
    intro hp
    rw [flatten_cons] at hp
    have hhead : (['[','S','o','u','r','c','e'] ++ (w ++ ['9','9','9',']'])).head? =
      some '[' := rfl
    cases s with
    | txt v =>
      have hv : '[' ∉ v := h (Seg.txt v) (List.mem_cons_self _ _)
      exact ih hrest (crossBlock _ hhead v _ hv hp)
    | src n =>
      obtain ⟨hn1, hn5⟩ := h (Seg.src n) (List.mem_cons_self _ _)
      have hdig : natToDigits n = [Nat.digitChar n] ∧
          isWS (Nat.digitChar n) = false ∧ Nat.digitChar n ≠ '9' := by
        interval_cases n <;> exact ⟨by decide, by decide, by decide⟩
      rw [show (Seg.src n).flat = srcMarker n from rfl, srcMarker_append_cons] at hp
      rcases List.infix_cons_iff.mp hp with hpre | hinf
      · have hpre' : (['[','S','o','u','r','c','e'] ++ (w ++ ['9','9','9',']'])) <+:
            ['[','S','o','u','r','c','e'] ++
              (' ' :: (natToDigits n ++ (']' :: flatten rest))) := by
          have heq : '[' :: ((sourceTag ++ (natToDigits n ++ [']'])) ++ flatten rest) =
              ['[','S','o','u','r','c','e'] ++
                (' ' :: (natToDigits n ++ (']' :: flatten rest))) := by
            simp [sourceTag]
          rwa [heq] at hpre
        have h2 := (List.prefix_append_right_inj _).mp hpre'
        rw [hdig.1] at h2
        cases w with
        | nil =>
          simp only [List.nil_append] at h2
          obtain ⟨h9, -⟩ := List.cons_prefix_cons.mp h2
          exact absurd h9 (by decide)
        | cons a w' =>
          rw [List.cons_append] at h2
          obtain ⟨-, h3⟩ := List.cons_prefix_cons.mp h2
          rw [List.singleton_append] at h3
          cases w' with
          | nil =>
            simp only [List.nil_append] at h3
            obtain ⟨h9, -⟩ := List.cons_prefix_cons.mp h3
            exact hdig.2.2 h9.symm
          | cons b w'' =>
            rw [List.cons_append] at h3
            obtain ⟨hb, -⟩ := List.cons_prefix_cons.mp h3
            have hbws := hw b (by simp)
            rw [hb, hdig.2.1] at hbws
            exact Bool.noConfusion hbws
      · refine ih hrest (crossBlock _ hhead (sourceTag ++ (natToDigits n ++ [']'])) _
          (bracket_not_mem_src_tail_block n) hinf)
    | bare n => exact (h (Seg.bare n) (List.mem_cons_self _ _)).elim
    | ph j => exact (h (Seg.ph j) (List.mem_cons_self _ _)).elim

theorem c4_no_bare_flat (k : Nat) (segs : List Seg) (h : ∀ s ∈ segs, OutSegOK k s) :
    ¬ (['[','4','2',']'] <:+: flatten segs) := by
  induction segs with
  | nil =>
    intro hp
    rw [flatten_nil] at hp
    have := List.infix_nil.mp hp
    simp at this
  | cons s rest ih =>
    have hrest := fun x hx => h x (List.mem_cons_of_mem _ hx)
    intro hp
    rw [flatten_cons] at hp
    have hhead : (['[','4','2',']'] : List Char).head? = some '[' := rfl
    cases s with
    | txt v =>
      have hv : '[' ∉ v := h (Seg.txt v) (List.mem_cons_self _ _)
      exact ih hrest (crossBlock _ hhead v _ hv hp)
    | src n =>
      rw [show (Seg.src n).flat = srcMarker n from rfl, srcMarker_append_cons] at hp
      rcases List.infix_cons_iff.mp hp with hpre | hinf
      · obtain ⟨-, h2⟩ := List.cons_prefix_cons.mp hpre
        have heq : (sourceTag ++ (natToDigits n ++ [']'])) ++ flatten rest =
            'S' :: ((['o','u','r','c','e',' '] ++ (natToDigits n ++ [']'])) ++
              flatten rest) := by
          simp [sourceTag]
        rw [heq] at h2
        obtain ⟨h4, -⟩ := List.cons_prefix_cons.mp h2
        exact absurd h4 (by decide)
      · exact ih hrest (crossBlock _ hhead (sourceTag ++ (natToDigits n ++ [']'])) _
          (bracket_not_mem_src_tail_block n) hinf)
    | bare n => exact (h (Seg.bare n) (List.mem_cons_self _ _)).elim
    | ph j => exact (h (Seg.ph j) (List.mem_cons_self _ _)).elim

theorem dedupValid_length_le (k : Nat) (l : List Nat) :
    (dedupValid k [] l).length ≤ k := by
  have hnd := nodup_dedupValid k l []
  have hsub : (dedupValid k [] l).toFinset ⊆ Finset.Icc 1 k := by
    intro x hx
    rw [List.mem_toFinset] at hx
    obtain ⟨-, -, h1, h2⟩ := (mem_dedupValid k l [] x).mp hx
    exact Finset.mem_Icc.mpr ⟨h1, h2⟩
  have hcard := Finset.card_le_card hsub
  rw [List.toFinset_card_of_nodup hnd, Nat.card_Icc] at hcard
  omega

theorem outSegOK_finalSeg (k : Nat) (used : List Nat) (hlen : used.length ≤ k)
    (s : Seg) (hs : InputOK s) : OutSegOK k (finalSeg used s) := by
  cases s with
  | txt w => exact hs.1
  | src n =>
    show OutSegOK k (if n ∈ used then Seg.src (1 + List.indexOf n used) else Seg.txt [])
    by_cases hmem : n ∈ used
    · rw [if_pos hmem]
      refine ⟨by omega, ?_⟩
      have := List.indexOf_lt_length.mpr hmem
      omega
    · rw [if_neg hmem]
      simp [OutSegOK]
  | bare n =>
    show OutSegOK k (Seg.txt [])
    simp [OutSegOK]
  | ph j => exact hs.elim

theorem inputOK_segOK {s : Seg} (h : InputOK s) : SegOK s := by
  cases s with
  | txt w => exact h
  | src n => trivial
  | bare n => trivial
  | ph j => exact h.elim

/-- **C3** (amended).  No citation for 999 ever appears in the returned
citation list (its originals all lie in `[1, 5]`); and for a response that
is a sequence of `[Source N]` markers, bare `[N]` markers and
marker-free text blocks containing the marker `[Source 999]` and at least
one valid citation, the output text of `process_response` with `k = 5`
contains no `[Source 999]` substring.  (The original claim is refuted by
`c3_counterexample`: when `[Source 999]` is the only marker, the
no-valid-citation early return hands the text back unchanged, marker
included.) -/
theorem c3_invalid_citation_scrubbed (lookup : Nat → Citation)
    (hl : ∀ n, 1 ≤ n → n ≤ 5 → (lookup n).sourceNum = n)
    (segs : List Seg) (hin : ∀ s ∈ segs, InputOK s)
    (h999 : Seg.src 999 ∈ segs)
    (hne : dedupValid 5 [] (scanSources (flatten segs)) ≠ []) :
    (∀ rc ∈ (processResponse lookup 5 (flatten segs)).2,
      rc.originalSourceNum ≠ 999) ∧
    ¬ (srcMarker 999 <:+: (processResponse lookup 5 (flatten segs)).1) := by
  constructor
  · intro rc hrc
    have hmap := processResponse_map_orig lookup 5 (flatten segs) hl
    have hm : rc.originalSourceNum ∈ (processResponse lookup 5 (flatten segs)).2.map
        (fun c => c.originalSourceNum) := List.mem_map_of_mem _ hrc
    rw [hmap] at hm
    obtain ⟨-, -, -, h2⟩ := (mem_dedupValid 5 _ [] _).mp hm
    omega
  · intro hbad
    rw [processResponse_fst_flatten lookup 5 segs hin hl hne] at hbad
    have h1 : (srcMarker 999) <:+: collapseWS (flatten (segs.map
        (finalSeg (dedupValid 5 [] (scanSources (flatten segs)))))) :=
      List.IsInfix.trans hbad (stripWS_isInfixOfSelf _)
    rw [show srcMarker 999 = ['[','S','o','u','r','c','e'] ++
      ' ' :: ['9','9','9',']'] from by decide] at h1
    obtain ⟨w, hwne, hw, hinf⟩ := collapseWS_infix_pull_sp
      ['[','S','o','u','r','c','e'] ['9','9','9',']']
      (by simp) (by decide) (by decide) _ h1
    refine c3_no_bad_flat _ ?_ w hw hinf
    intro s hs
    obtain ⟨x, hx, rfl⟩ := List.mem_map.mp hs
    exact outSegOK_finalSeg 5 _ (dedupValid_length_le 5 _) x (hin x hx)

theorem c3_invalid_citation_scrubbed_witness :
    (∀ rc ∈ (processResponse mkLookup 5 (flatten [Seg.src 1, Seg.src 999])).2,
      rc.originalSourceNum ≠ 999) ∧
    ¬ (srcMarker 999 <:+:
        (processResponse mkLookup 5 (flatten [Seg.src 1, Seg.src 999])).1) :=
  c3_invalid_citation_scrubbed mkLookup (fun n _ _ => rfl)
    [Seg.src 1, Seg.src 999]
    (by intro s hs; fin_cases hs <;> trivial)
    (by decide)
    (by decide)

/-- Refutation of the original **C3**: the response `"[Source 999]"` does
contain the marker `[Source 999]` and is processed with `k = 5`, yet the
output text still contains (indeed equals) `[Source 999]`, because the
no-valid-citation early return (src/citation_manager.py lines 112-113)
fires before the scrub step. -/
theorem c3_counterexample :
    (processResponse mkLookup 5 (srcMarker 999)).1 = srcMarker 999 ∧
    srcMarker 999 <:+: (processResponse mkLookup 5 (srcMarker 999)).1 := by
  decide

/-- **C4** (amended).  For a response that is a sequence of `[Source N]`
markers, bare `[N]` markers and marker-free text blocks containing the
bare marker `[42]` and at least one valid citation, the output text of
`process_response` contains no `[42]` substring, and every returned
citation originates from a `[Source N]` marker of the input — in
particular none is created for the bare `[42]`.  (The original claim is
refuted by `c4_counterexample`: on the spec's own example text
`"The study [42] found..."`, which has no valid marker, the early return
keeps `[42]` verbatim.) -/
theorem c4_bare_marker_stripped (lookup : Nat → Citation) (k : Nat)
    (hl : ∀ n, 1 ≤ n → n ≤ k → (lookup n).sourceNum = n)
    (segs : List Seg) (hin : ∀ s ∈ segs, InputOK s)
    (h42 : Seg.bare 42 ∈ segs)
    (hne : dedupValid k [] (scanSources (flatten segs)) ≠ []) :
    ¬ (('[' :: (natToDigits 42 ++ [']'])) <:+:
        (processResponse lookup k (flatten segs)).1) ∧
    (∀ rc ∈ (processResponse lookup k (flatten segs)).2,
      Seg.src rc.originalSourceNum ∈ segs) := by
  constructor
  · intro hbad
    rw [processResponse_fst_flatten lookup k segs hin hl hne] at hbad
    have h1 := List.IsInfix.trans hbad (stripWS_isInfixOfSelf _)
    rw [show ('[' :: (natToDigits 42 ++ [']'])) = ['[','4','2',']'] from by decide] at h1
    have h2 := collapseWS_infix_pull_nws ['[','4','2',']'] (by simp) (by decide) _ h1
    refine c4_no_bare_flat k _ ?_ h2
    intro s hs
    obtain ⟨x, hx, rfl⟩ := List.mem_map.mp hs
    exact outSegOK_finalSeg k _ (dedupValid_length_le k _) x (hin x hx)
  · intro rc hrc
    have hmap := processResponse_map_orig lookup k (flatten segs) hl
    have hm : rc.originalSourceNum ∈ (processResponse lookup k (flatten segs)).2.map
        (fun c => c.originalSourceNum) := List.mem_map_of_mem _ hrc
    rw [hmap] at hm
    obtain ⟨hc, -, -, -⟩ := (mem_dedupValid k _ [] _).mp hm
    rw [scanSources_flatten segs (fun x hx => segOK_brk (inputOK_segOK (hin x hx)))] at hc
    obtain ⟨s, hs, hsome⟩ := List.mem_filterMap.mp hc
    cases s with
    | src m =>
      have hms : m = rc.originalSourceNum := Option.some.inj hsome
      rw [← hms]
      exact hs
    | txt v => exact Option.noConfusion hsome
    | bare m => exact Option.noConfusion hsome
    | ph j => exact Option.noConfusion hsome

theorem c4_bare_marker_stripped_witness :
    ¬ (('[' :: (natToDigits 42 ++ [']'])) <:+:
        (processResponse mkLookup 5 (flatten [Seg.src 1, Seg.bare 42])).1) ∧
    (∀ rc ∈ (processResponse mkLookup 5 (flatten [Seg.src 1, Seg.bare 42])).2,
      Seg.src rc.originalSourceNum ∈ [Seg.src 1, Seg.bare 42]) :=
  c4_bare_marker_stripped mkLookup 5 (fun n _ _ => rfl)
    [Seg.src 1, Seg.bare 42]
    (by intro s hs; fin_cases hs <;> trivial)
    (by decide)
    (by decide)

/-- Refutation of the original **C4**: on the spec's own example, a bare
`[42]` with no valid `[Source N]` marker anywhere, the output text is the
input unchanged — `[42]` is not removed — because the no-valid-citation
early return fires before the bare-number scrub. -/
theorem c4_counterexample :
    (processResponse mkLookup 5 ("The study [42] found more".data)).1 =
      "The study [42] found more".data ∧
    ['[','4','2',']'] <:+:
      (processResponse mkLookup 5 ("The study [42] found more".data)).1 := by
  decide

end Jarvis
